import Mathlib

/-!
Verification development for the `rfi_parser` knowledge-base retrieval core.

The Python sources under `backend/app/services/` are shallowly embedded:

* document text is modelled as `List Char` (Python `str`, one element per
  code point, so Python `len`/slicing agree with `List.length`/`take`/`drop`);
* scores, weights and timestamps are modelled as exact rationals `ℚ`
  (the Python code manipulates floats; all claims under scrutiny concern
  the algebraic shape of the computations, stated here over `ℚ`);
* `Optional[T]` becomes `Option T`, dictionaries keyed by insertion order
  become association lists, and Python's stable `sorted`/`list.sort`
  becomes `List.mergeSort` (which is the stable merge sort);
* external collaborators (the Chroma similarity backend, the Ollama
  embedding endpoint, the parser registry, the filesystem clock/mtime)
  enter as explicit function parameters, exactly at the call boundary the
  source crosses.
-/

namespace RfiParser

/-! ## Python string primitives (`str.strip`, `str.lower`, slicing) -/

/-- The ASCII whitespace characters recognised by Python's `str.strip()`
(space, tab, newline, carriage return, form feed, vertical tab). -/
def isPySpace (c : Char) : Bool :=
  c = ' ' || c = '\t' || c = '\n' || c = '\r' || c = '\x0c' || c = '\x0b'

/-- Python `s.strip()`: drop leading and trailing whitespace. -/
def pyStrip (s : List Char) : List Char :=
  ((s.dropWhile (fun c => isPySpace c)).reverse.dropWhile (fun c => isPySpace c)).reverse

/-- Python `s.lower()` (restricted to the ASCII case mapping, which is all
the code under scrutiny relies on). -/
def pyLower (s : List Char) : List Char :=
  s.map Char.toLower

/-- Python `round(x, 4)`: round to four decimal places.  Modelled with
Mathlib's `round` on `ℚ`; ties are irrelevant to every claim proved here. -/
def round4 (q : ℚ) : ℚ :=
  (round (q * 10000) : ℚ) / 10000

/-! ## Vector store (`vector_store.py`)

`ChromaVectorStore.search` receives, from the Chroma backend, parallel
lists of documents, metadatas and cosine distances; it converts each
distance to a similarity score.  The backend response is modelled as the
list of `(document, metadata, distance)` rows it zips over. -/

/-- The metadata stored with every vector-store record
(`knowledge_base.py` lines 101-110). -/
structure Metadata where
  source_file_id : Int
  source_filename : List Char
  chunk_index : Nat
  section_title : List Char
  page_number : Nat
deriving Repr, DecidableEq

/-- `vector_store.py` `SearchResult` (text, score, metadata). -/
structure SearchResult where
  text : List Char
  score : ℚ
  metadata : Metadata
deriving Repr, DecidableEq

def SearchResult.source_file_id (r : SearchResult) : Int :=
  r.metadata.source_file_id

def SearchResult.source_filename (r : SearchResult) : List Char :=
  r.metadata.source_filename

def SearchResult.section_title (r : SearchResult) : List Char :=
  r.metadata.section_title

/-- `vector_store.py` line 148: `score = max(0.0, 1.0 - (dist / 2.0))`. -/
def distanceToScore (dist : ℚ) : ℚ :=
  max 0 (1 - dist / 2)

/-- `ChromaVectorStore.search` (lines 138-155): convert each backend row
`(document, metadata, distance)` into a `SearchResult` whose score is the
converted distance. -/
def chromaSearch (rows : List (List Char × Metadata × ℚ)) : List SearchResult :=
  rows.map (fun row => { text := row.1, score := distanceToScore row.2.2, metadata := row.2.1 })

/-! ## Batch embedding (`embeddings.py`)

`OllamaEmbeddings.embed_batch` submits `embed_with_index(i, texts[i])` for
every index to a thread pool and collects `(idx, embedding)` pairs in
*completion* order, writing each into its own slot of a pre-allocated
result list.  The nondeterministic completion order is modelled as an
explicit list of indices: the fold below performs exactly the slot writes
of the `as_completed` loop, in that order.  The single underlying
`embed` call is an explicit function parameter. -/

/-- The `as_completed` collection loop (`embeddings.py` lines 99-113):
start from `[None] * len(texts)` and write slot `idx` for every completed
future, in completion order. -/
def embedBatchCollect (f : List Char → List ℚ) (texts : List (List Char))
    (completionOrder : List Nat) : List (Option (List ℚ)) :=
  completionOrder.foldl
    (fun acc i => acc.set i (texts[i]?.map f))
    (List.replicate texts.length none)

/-- `OllamaEmbeddings.embed_batch` (lines 88-114): sequential map for at
most one text, parallel fan-out with slot collection otherwise. -/
def embedBatch (f : List Char → List ℚ) (texts : List (List Char))
    (completionOrder : List Nat) : List (Option (List ℚ)) :=
  if texts.length ≤ 1 then
    texts.map (fun t => some (f t))
  else
    embedBatchCollect f texts completionOrder

/-! ## Knowledge-base search (`knowledge_base.py`)

`KnowledgeBase.search` embeds the query and queries the vector store;
that whole backend round trip (embedding + `ChromaVectorStore.search`) is
abstracted as a function `backend : query ↦ n_results ↦ results`, and the
`min_score` filter on top of it is translated literally.  Python's `hash`
of the 200-character text prefix used by the dedup key is abstracted as a
function parameter `thash`. -/

/-- `KnowledgeBase.search` (lines 138-168): backend results filtered by
`score >= min_score` when `min_score > 0`. -/
def kbSearch (backend : List Char → Nat → List SearchResult)
    (query : List Char) (nResults : Nat) (minScore : ℚ) : List SearchResult :=
  let results := backend query nResults
  if 0 < minScore then results.filter (fun r => minScore ≤ r.score) else results

/-- An entry of the `all_results` dedup dict in `search_multi_query`
(lines 257-264). -/
structure MergedResult where
  text : List Char
  source : List Char
  source_file_id : Int
  sect : List Char
  score : ℚ
  match_count : Nat
deriving Repr, DecidableEq

/-- One line of `search_multi_query`'s final output (after `match_count`
is popped and the score clamped and rounded, lines 273-275). -/
structure MultiQueryResult where
  text : List Char
  source : List Char
  source_file_id : Int
  sect : List Char
  score : ℚ
deriving Repr, DecidableEq

/-- First-match association-list lookup (the model of Python dict access;
the maps built below never hold duplicate keys). -/
def lookupKey {κ β : Type} [DecidableEq κ] : List (κ × β) → κ → Option β
  | [], _ => none
  | p :: rest, k => if p.1 = k then some p.2 else lookupKey rest k

/-- Line 245: `key = f"{r.source_file_id}_{hash(r.text[:200])}"`; the
id/hash pair is kept unserialised (the serialisation is injective, the
id being an integer and the hash following the underscore). -/
def dedupKey (thash : List Char → Int) (r : SearchResult) : Int × Int :=
  (r.source_file_id, thash (r.text.take 200))

/-- Line 192 / 253-255: truncate a result text to `context_chars`,
appending `"..."`. -/
def truncateText (contextChars : Nat) (t : List Char) : List Char :=
  if contextChars < t.length then t.take contextChars ++ ['.', '.', '.'] else t

/-- Lines 248-251: the boost applied when a dedup key recurs:
`existing["score"] = max(existing["score"], r.score) * 1.1` and the match
counter increments. -/
def boostEntry (v : MergedResult) (newScore : ℚ) : MergedResult :=
  { v with score := max v.score newScore * (11 / 10), match_count := v.match_count + 1 }

/-- Lines 243-264: fold one search result into the insertion-ordered
dedup map. -/
def mergeOne (thash : List Char → Int) (contextChars : Nat)
    (acc : List ((Int × Int) × MergedResult)) (r : SearchResult) :
    List ((Int × Int) × MergedResult) :=
  let key := dedupKey thash r
  if (lookupKey acc key).isSome then
    acc.map (fun p => if p.1 = key then (p.1, boostEntry p.2 r.score) else p)
  else
    acc ++ [(key,
      { text := truncateText contextChars r.text
        source := r.source_filename
        source_file_id := r.source_file_id
        sect := r.section_title
        score := r.score
        match_count := 1 })]

/-- Lines 237-241: process one query (skipping empty / short queries)
through `search` and fold its results into the dedup map. -/
def multiQueryStep (backend : List Char → Nat → List SearchResult)
    (thash : List Char → Int) (nPerQuery contextChars : Nat) (minScore : ℚ)
    (acc : List ((Int × Int) × MergedResult)) (query : List Char) :
    List ((Int × Int) × MergedResult) :=
  if query.isEmpty || (pyStrip query).length < 5 then acc
  else (kbSearch backend query nPerQuery minScore).foldl (mergeOne thash contextChars) acc

/-- Descending-by-score comparator used for Python's stable
`sorted(..., key=score, reverse=True)`. -/
def scoreDesc (a b : MergedResult) : Bool :=
  decide (b.score ≤ a.score)

/-- `KnowledgeBase.search_multi_query` (lines 205-280). -/
def searchMultiQuery (backend : List Char → Nat → List SearchResult)
    (thash : List Char → Int) (queries : List (List Char))
    (nPerQuery maxTotal contextChars : Nat) (minScore : ℚ) :
    List MultiQueryResult :=
  if queries.isEmpty then []
  else
    let allResults := queries.foldl
      (multiQueryStep backend thash nPerQuery contextChars minScore) []
    let sortedResults := ((allResults.map Prod.snd).mergeSort scoreDesc).take maxTotal
    sortedResults.map (fun v =>
      { text := v.text
        source := v.source
        source_file_id := v.source_file_id
        sect := v.sect
        score := round4 (min v.score 1) })


/-! ## Hybrid search (`knowledge_base.py` lines 282-364) -/

/-- A character matched by `\w` (ASCII: the code lowercases an ASCII
query and looks for `[a-zA-Z]+` between word boundaries). -/
def isWordChar (c : Char) : Bool :=
  c.isAlpha || c.isDigit || c = '_'

/-- The maximal runs of word characters of a string (the candidate spans
between `\b` word boundaries). -/
def wordRuns : List Char → List (List Char)
  | [] => []
  | c :: rest =>
    if isWordChar c then
      (c :: rest.takeWhile isWordChar) :: wordRuns (rest.dropWhile isWordChar)
    else
      wordRuns rest
termination_by l => l.length
decreasing_by
  · have := (List.dropWhile_sublist (l := rest) (p := isWordChar)).length_le
    simp only [List.length_cons]
    omega
  · simp

/-- `re.findall(r'\b[a-zA-Z]+\b', s)`: the maximal word-character runs
made up entirely of letters (a run touching a digit or underscore has no
word boundary inside it, so it yields no match at all). -/
def findAlphaWords (s : List Char) : List (List Char) :=
  (wordRuns s).filter (fun w => w.all Char.isAlpha)

/-- The stopword set of `hybrid_search` (lines 318-323). -/
def hybridStopwords : List (List Char) :=
  ["the".toList, "a".toList, "an".toList, "is".toList, "are".toList, "was".toList,
   "were".toList, "be".toList, "been".toList, "being".toList, "have".toList, "has".toList,
   "had".toList, "do".toList, "does".toList, "did".toList, "will".toList, "would".toList,
   "could".toList, "should".toList, "may".toList, "might".toList, "must".toList,
   "can".toList, "for".toList, "and".toList, "nor".toList, "but".toList, "or".toList,
   "yet".toList, "so".toList, "of".toList, "in".toList, "on".toList, "at".toList,
   "to".toList, "from".toList, "by".toList, "with".toList, "what".toList, "which".toList,
   "who".toList, "whom".toList, "this".toList, "that".toList, "these".toList,
   "those".toList, "it".toList]

/-- Lines 325-326: keywords derived from the query when none are given:
lowercase, find alphabetic words, drop stopwords and words of length ≤ 2. -/
def deriveKeywords (query : List Char) : List (List Char) :=
  (findAlphaWords (pyLower query)).filter
    (fun w => decide (w ∉ hybridStopwords) && decide (2 < w.length))

/-- Lines 333-339: count the keyword entries whose lowercased text occurs
as a substring of the candidate's lowercased text (each list entry counts,
with multiplicity) and divide by `max(len(keywords), 1)`; an empty keyword
list scores 0. -/
def keywordScore (keywords : List (List Char)) (textLower : List Char) : ℚ :=
  let matchCount := (keywords.filter (fun kw => decide (pyLower kw <:+: textLower))).length
  if keywords.isEmpty then 0 else (matchCount : ℚ) / (max keywords.length 1 : ℚ)

/-- One entry of `hybrid_search`'s output (lines 348-356). -/
structure HybridResult where
  text : List Char
  source : List Char
  source_file_id : Int
  sect : List Char
  score : ℚ
  semantic_score : ℚ
  keyword_score : ℚ
deriving Repr, DecidableEq

/-- Descending-by-combined-score comparator for the final stable sort. -/
def hybridScoreDesc (a b : HybridResult) : Bool :=
  decide (b.score ≤ a.score)

/-- `KnowledgeBase.hybrid_search` (lines 282-364): 3×-oversampled
semantic candidates with no score floor, combined scoring, `min_score`
filter, stable descending sort, truncation to `n_results`. -/
def hybridSearch (backend : List Char → Nat → List SearchResult) (query : List Char)
    (keywords : Option (List (List Char))) (nResults : Nat)
    (semanticWeight keywordWeight minScore : ℚ) : List HybridResult :=
  let semanticResults := kbSearch backend query (nResults * 3) 0
  let kws := keywords.getD (deriveKeywords query)
  let scored := semanticResults.filterMap (fun r =>
    let ks := keywordScore kws (pyLower r.text)
    let combined := r.score * semanticWeight + ks * keywordWeight
    if minScore ≤ combined then
      some { text := r.text
             source := r.source_filename
             source_file_id := r.source_file_id
             sect := r.section_title
             score := round4 combined
             semantic_score := round4 r.score
             keyword_score := round4 ks }
    else none)
  (scored.mergeSort hybridScoreDesc).take nResults

/-- The keyword score as C3's sentence describes it: the number of
*distinct* keywords occurring as substrings, over `max(len(keywords), 1)`.
Stated from the claim's words, for comparison against `keywordScore`. -/
def specDistinctKeywordScore (keywords : List (List Char)) (textLower : List Char) : ℚ :=
  ((keywords.dedup.filter (fun kw => decide (kw <:+: textLower))).length : ℚ) /
    (max keywords.length 1 : ℚ)

/-! ## Document chunker (`chunker.py`)

Texts are `List Char`; ordinal chunk indices are assigned in emission
order, which the embedding realises by enumerating the emitted texts. -/

/-- `chunker.py` `Chunk` (text plus provenance metadata). -/
structure Chunk where
  text : List Char
  source_file_id : Int
  source_filename : List Char
  chunk_index : Nat
  section_title : Option (List Char) := none
  page_number : Option Nat := none
deriving Repr, DecidableEq

/-- Index of the last `'\n'` in a list, if any. -/
def lastNewlineIdx : List Char → Option Nat
  | [] => none
  | c :: rest =>
    match lastNewlineIdx rest with
    | some i => some (i + 1)
    | none => if c = '\n' then some 0 else none

/-- Length of the leftmost match of `\n\s*\n` at the head of `s` (the
paragraph separator of `re.split(r'\n\s*\n', text)`): a newline, then the
greedy whitespace run backtracked to its last newline. -/
def blankSepLength (s : List Char) : Option Nat :=
  match s with
  | '\n' :: rest =>
    match lastNewlineIdx (rest.takeWhile (fun c => isPySpace c)) with
    | some i => some (i + 2)
    | none => none
  | _ => none

/-- `re.split(r'\n\s*\n', text)`: scan left to right, cutting a piece at
every separator match.  `fuel` only bounds the recursion; it starts at
`length + 1` and every step consumes at least one character, so it never
runs out. -/
def splitBlankLinesGo : Nat → List Char → List Char → List (List Char)
  | 0, _, acc => [acc.reverse]
  | fuel + 1, s, acc =>
    match s with
    | [] => [acc.reverse]
    | c :: rest =>
      match blankSepLength (c :: rest) with
      | some n => acc.reverse :: splitBlankLinesGo fuel ((c :: rest).drop n) []
      | none => splitBlankLinesGo fuel rest (c :: acc)

def splitBlankLines (s : List Char) : List (List Char) :=
  splitBlankLinesGo (s.length + 1) s []

/-- One step of `_chunk_generic`'s paragraph loop (lines 133-151), on a
state of (emitted chunk texts, current buffer). -/
def genericStep (size overlap minSize : Nat)
    (st : List (List Char) × List Char) (para0 : List Char) :
    List (List Char) × List Char :=
  let para := pyStrip para0
  if para.isEmpty then st
  else
    let texts := st.1
    let current := st.2
    if size < current.length + para.length ∧ ¬ current.isEmpty then
      let texts2 := if minSize ≤ current.length then texts ++ [current] else texts
      (texts2, current.drop (current.length - overlap) ++ '\n' :: '\n' :: para)
    else
      (texts, pyStrip (current ++ '\n' :: '\n' :: para))

/-- `_chunk_generic` (lines 120-162) as the list of emitted chunk texts,
in emission order. -/
def genericTexts (size overlap minSize : Nat) (text : List Char) : List (List Char) :=
  let st := (splitBlankLines text).foldl (genericStep size overlap minSize) ([], [])
  if ¬ st.2.isEmpty ∧ minSize ≤ st.2.length then st.1 ++ [st.2] else st.1

/-- `text.rfind('. ', lo, hi)`: the largest index `j ≥ lo` with
`text[j] = '.'`, `text[j+1] = ' '` and `j + 2 ≤ hi`, if any. -/
def rfindDotSpace (text : List Char) (lo hi : Nat) : Option Nat :=
  ((List.range (min hi text.length)).filter (fun j =>
    decide (lo ≤ j) && decide (j + 2 ≤ hi) &&
    decide (text.get? j = some '.') && decide (text.get? (j + 1) = some ' '))).max?

/-- The `[start:end)` spans produced by `_split_by_size`'s while loop
(lines 170-196): window of `chunk_size`, preferring a `'. '` break found
between `start + chunk_size//2` and `end + 100`, then advancing to
`end - chunk_overlap`.  `fuel` starts at `length + 1`; each iteration
advances `start` whenever `overlap ≤ size/2` (the configured defaults),
so the fuel never runs out then. -/
def splitBySizeSpansGo (size overlap : Nat) (text : List Char) :
    Nat → Nat → List (Nat × Nat)
  | 0, _ => []
  | fuel + 1, start =>
    if start < text.length then
      let end0 := start + size
      let end1 :=
        if end0 < text.length then
          match rfindDotSpace text (start + size / 2) (end0 + 100) with
          | some bp => if start < bp then bp + 1 else end0
          | none => end0
        else end0
      (start, end1) :: splitBySizeSpansGo size overlap text fuel (end1 - overlap)
    else []

def splitBySizeSpans (size overlap : Nat) (text : List Char) : List (Nat × Nat) :=
  splitBySizeSpansGo size overlap text (text.length + 1) 0

/-- The raw window texts of `_split_by_size` (before the per-window strip
and minimum-size filter). -/
def splitBySizeWindows (size overlap : Nat) (text : List Char) : List (List Char) :=
  (splitBySizeSpans size overlap text).map (fun sp => (text.drop sp.1).take (sp.2 - sp.1))

/-- The chunk texts `_split_by_size` emits: each window stripped, kept
when it reaches the minimum chunk size (lines 184-192). -/
def splitBySizeTexts (size overlap minSize : Nat) (text : List Char) : List (List Char) :=
  ((splitBySizeWindows size overlap text).map pyStrip).filter
    (fun w => decide (minSize ≤ w.length))

/-- Match the `PART\s+\d+[A-Z\s]*` alternative of the section-header
regex at the head of `s`, returning the match length. -/
def matchPartHeader (s : List Char) : Option Nat :=
  match s with
  | 'P' :: 'A' :: 'R' :: 'T' :: rest =>
    let nws := (rest.takeWhile (fun c => isPySpace c)).length
    if nws = 0 then none
    else
      let rest2 := rest.drop nws
      let nd := (rest2.takeWhile Char.isDigit).length
      if nd = 0 then none
      else
        let rest3 := rest2.drop nd
        let ntail := (rest3.takeWhile (fun c => c.isUpper || isPySpace c)).length
        some (4 + nws + nd + ntail)
  | _ => none

/-- Match the `\d+\.\d+(?:\.\d+)?(?:\.[A-Z])?\.?\s+[A-Z]` alternative of
the section-header regex at the head of `s` (greedy matching; for this
pattern maximal munch agrees with the regex engine's backtracking, since
a consumed optional group can never be the reason the tail fails). -/
def matchNumberedHeader (s : List Char) : Option Nat :=
  let n1 := (s.takeWhile Char.isDigit).length
  if n1 = 0 then none
  else
    match s.drop n1 with
    | '.' :: r1 =>
      let n2 := (r1.takeWhile Char.isDigit).length
      if n2 = 0 then none
      else
        let r2 := r1.drop n2
        let st3 : Nat × List Char :=
          match r2 with
          | '.' :: rr =>
            let n3 := (rr.takeWhile Char.isDigit).length
            if n3 = 0 then (0, r2) else (1 + n3, rr.drop n3)
          | _ => (0, r2)
        let st4 : Nat × List Char :=
          match st3.2 with
          | '.' :: c :: rr => if c.isUpper then (st3.1 + 2, rr) else (st3.1, st3.2)
          | _ => (st3.1, st3.2)
        let st5 : Nat × List Char :=
          match st4.2 with
          | '.' :: rr => (st4.1 + 1, rr)
          | _ => (st4.1, st4.2)
        let nws := (st5.2.takeWhile (fun c => isPySpace c)).length
        if nws = 0 then none
        else
          match st5.2.drop nws with
          | c :: _ => if c.isUpper then some (n1 + 1 + n2 + st5.1 + nws + 1) else none
          | [] => none
    | _ => none

/-- The full header alternation, left branch first. -/
def matchHeader (s : List Char) : Option Nat :=
  match matchPartHeader s with
  | some n => some n
  | none => matchNumberedHeader s

/-- `finditer` over the MULTILINE-anchored header pattern: scan position
by position, matching only at line starts, and resume after each match.
Every match is nonempty, so `fuel = length + 1` never runs out. -/
def findHeadersGo (text : List Char) : Nat → Nat → List (Nat × Nat)
  | 0, _ => []
  | fuel + 1, pos =>
    if pos < text.length then
      let atLineStart := pos = 0 ∨ text.get? (pos - 1) = some '\n'
      match if atLineStart then matchHeader (text.drop pos) else none with
      | some len => (pos, len) :: findHeadersGo text fuel (pos + len)
      | none => findHeadersGo text fuel (pos + 1)
    else []

/-- All `(start, length)` header matches of `_chunk_specification`'s
`section_pattern.finditer(text)` (lines 80-88). -/
def findHeaders (text : List Char) : List (Nat × Nat) :=
  findHeadersGo text (text.length + 1) 0

/-- Lines 95-100: each match yields a section running to the next match's
start (or the end of text), stripped, with the stripped match text as its
title. -/
def sectionsOf (text : List Char) : List (Nat × Nat) → List (List Char × List Char)
  | [] => []
  | m :: rest =>
    let endPos := match rest with | [] => text.length | m2 :: _ => m2.1
    (pyStrip ((text.drop m.1).take (endPos - m.1)),
      pyStrip ((text.drop m.1).take m.2)) :: sectionsOf text rest

/-- Lines 103-116: a section too large (over twice the chunk size) is
re-split by size with the section title propagated to every sub-chunk;
otherwise it becomes a single chunk when it reaches the minimum size. -/
def specPieceFor (size overlap minSize : Nat) (sec title : List Char) :
    List (List Char × Option (List Char)) :=
  if size * 2 < sec.length then
    (splitBySizeTexts size overlap minSize sec).map (fun w => (w, some title))
  else if minSize ≤ sec.length then [(sec, some title)]
  else []

/-- Assign ordinal chunk indices in emission order (each append in the
source sets `chunk_index = len(chunks)`, i.e. the position). -/
def mkChunks (fileId : Int) (filename : List Char)
    (pieces : List (List Char × Option (List Char))) : List Chunk :=
  pieces.enum.map (fun p =>
    { text := p.2.1
      source_file_id := fileId
      source_filename := filename
      chunk_index := p.1
      section_title := p.2.2
      page_number := none })

/-- `_chunk_generic` (lines 120-162). -/
def chunkGeneric (size overlap minSize : Nat) (fileId : Int) (filename : List Char)
    (text : List Char) : List Chunk :=
  mkChunks fileId filename ((genericTexts size overlap minSize text).map (fun t => (t, none)))

/-- `_chunk_specification` (lines 63-118): section-aware chunking, with
fallback to generic chunking when no header matches. -/
def chunkSpecification (size overlap minSize : Nat) (fileId : Int) (filename : List Char)
    (text : List Char) : List Chunk :=
  let ms := findHeaders text
  if ms.isEmpty then chunkGeneric size overlap minSize fileId filename text
  else
    mkChunks fileId filename
      (((sectionsOf text ms).map
        (fun sec => specPieceFor size overlap minSize sec.1 sec.2)).flatten)

/-- `DocumentChunker.chunk_document` (lines 41-61). -/
def chunkDocument (size overlap minSize : Nat) (fileId : Int) (filename : List Char)
    (text : List Char) (contentType : List Char) : List Chunk :=
  if text.isEmpty ∨ (pyStrip text).length < minSize then []
  else if contentType = "specification".toList then
    chunkSpecification size overlap minSize fileId filename text
  else
    chunkGeneric size overlap minSize fileId filename text

/-! ## Vector-store records and `index_document`

`ChromaVectorStore` data is a collection of records; `add` appends,
`delete_by_metadata` removes every record whose metadata matches.  Record
ids are the strings `f"{file_id}_{chunk.chunk_index}"`; they are kept as
the `(file_id, chunk_index)` pair, of which that string is an injective
serialisation.  The embedding backend is a function parameter. -/

structure StoreRecord where
  id : Int × Nat
  text : List Char
  embedding : List ℚ
  metadata : Metadata
deriving Repr, DecidableEq

/-- `ChromaVectorStore.add_documents` (lines 106-122). -/
def addDocuments (store : List StoreRecord) (recs : List StoreRecord) : List StoreRecord :=
  store ++ recs

/-- `ChromaVectorStore.delete_by_file_id` via `delete_by_metadata`
(lines 157-173): count then remove every record whose
`metadata.source_file_id` matches. -/
def deleteByFileId (store : List StoreRecord) (fileId : Int) : Nat × List StoreRecord :=
  ((store.filter (fun r => decide (r.metadata.source_file_id = fileId))).length,
    store.filter (fun r => ¬ r.metadata.source_file_id = fileId))

/-- `KnowledgeBase.index_document` (lines 57-121): skip blank content,
delete the file's previous chunks, chunk, embed, and append the new
records with ids `(file_id, chunk_index)`.  Returns the chunk count and
the new store. -/
def indexDocument (size overlap minSize : Nat) (embed : List Char → List ℚ)
    (store : List StoreRecord) (content : List Char) (fileId : Int)
    (filename : List Char) (isSpecification : Bool) : Nat × List StoreRecord :=
  if content.isEmpty ∨ (pyStrip content).isEmpty then (0, store)
  else
    let store1 := (deleteByFileId store fileId).2
    let chunks := chunkDocument size overlap minSize fileId filename content
      (if isSpecification then "specification".toList else "other".toList)
    if chunks.isEmpty then (0, store1)
    else
      (chunks.length, addDocuments store1 (chunks.map (fun c =>
        { id := (fileId, c.chunk_index)
          text := c.text
          embedding := embed c.text
          metadata :=
            { source_file_id := c.source_file_id
              source_filename := c.source_filename
              chunk_index := c.chunk_index
              section_title := c.section_title.getD []
              page_number := c.page_number.getD 0 } })))

/-! ## Content cache (`content_cache.py`)

State of one `ContentCache` instance.  The in-memory `OrderedDict` is an
association list with the oldest entry first; `move_to_end` re-appends,
`popitem(last=False)` pops the head.  The sha256 path-hash cache key is
modelled by the path itself (the hash is injective for the purposes of
the cache).  Timestamps and mtimes are modelled as integers (the code
only ever compares them), byte sizes via `Char.utf8Size`.  The
filesystem's answer to `Path(p).stat().st_mtime` enters as an explicit
`Option Int` parameter (`none` = the stat raised), the wall clock as
`now`, and the parser collaborator's response as a `ParseRes` value. -/

/-- The parser collaborator's result shape (`parsers/base.py`), metadata
kept as an opaque blob. -/
structure ParseRes where
  success : Bool
  text_content : Option (List Char)
  metadata : List Char
  error : Option (List Char)
deriving Repr, DecidableEq

/-- The metadata stored in a cache entry: the parse metadata, or the
`{"error": ...}` dict recorded on parser failure. -/
inductive CacheMeta where
  | parsed (blob : List Char)
  | failed (err : List Char)
deriving Repr, DecidableEq

/-- `content_cache.py` `CacheEntry`. -/
structure CacheEntry where
  content : List Char
  metadata : CacheMeta
  file_path : List Char
  file_modified : Int
  cached_at : Int
  access_count : Nat
  last_accessed : Int
deriving Repr, DecidableEq

/-- The mutable state of a `ContentCache` (memory map, byte counter,
configuration, disk overflow map, statistics counters). -/
structure CacheState where
  cache : List (List Char × CacheEntry)
  sizeBytes : Int
  maxItems : Nat
  maxBytes : Int
  ttl : Int
  disk : List (List Char × CacheEntry)
  hits : Nat
  misses : Nat
  evictions : Nat
  diskHits : Nat
deriving Repr, DecidableEq

/-- `len(content.encode("utf-8"))`. -/
def utf8Len (s : List Char) : Int :=
  ((s.map Char.utf8Size).sum : Int)

/-- Remove a key from an association list (all its occurrences; the maps
built here never hold duplicates). -/
def removeKey {β : Type} (l : List (List Char × β)) (k : List Char) : List (List Char × β) :=
  l.filter (fun p => ¬ p.1 = k)

/-- `_save_to_disk`: overwrite the key's file in the disk-cache dir. -/
def diskPut (d : List (List Char × CacheEntry)) (k : List Char) (e : CacheEntry) :
    List (List Char × CacheEntry) :=
  removeKey d k ++ [(k, e)]

/-- `_get_from_disk` (lines 265-296): validate the stored entry against
the live mtime and the TTL, unlinking it when stale; a stat failure is
swallowed and reads as a plain miss. -/
def diskGet (st : CacheState) (path : List Char) (fsMtime : Option Int) (now : Int) :
    Option CacheEntry × CacheState :=
  match lookupKey st.disk path with
  | none => (none, st)
  | some e =>
    match fsMtime with
    | some m =>
      if e.file_modified < m then (none, { st with disk := removeKey st.disk path })
      else if st.ttl < now - e.cached_at then (none, { st with disk := removeKey st.disk path })
      else (some { e with file_path := path, last_accessed := now }, st)
    | none => (none, st)

/-- The eviction loop of `_add_to_memory` (lines 248-259), carried out on
the `(cache, sizeBytes, evictions, disk)` components: while the item
count or projected byte size exceeds the maxima, pop the oldest entry,
un-count its bytes, and save it to disk when it was accessed more than
once. -/
def evictLoopGo (maxItems : Nat) (maxBytes contentSize : Int) :
    List (List Char × CacheEntry) → Int → Nat → List (List Char × CacheEntry) →
      List (List Char × CacheEntry) × Int × Nat × List (List Char × CacheEntry)
  | [], size, ev, disk => ([], size, ev, disk)
  | (k, e) :: rest, size, ev, disk =>
    if maxItems ≤ ((k, e) :: rest).length ∨ maxBytes < size + contentSize then
      evictLoopGo maxItems maxBytes contentSize rest (size - utf8Len e.content) (ev + 1)
        (if 1 < e.access_count then diskPut disk k e else disk)
    else ((k, e) :: rest, size, ev, disk)

def evictLoop (st : CacheState) (contentSize : Int) : CacheState :=
  let r := evictLoopGo st.maxItems st.maxBytes contentSize st.cache st.sizeBytes
    st.evictions st.disk
  { st with cache := r.1, sizeBytes := r.2.1, evictions := r.2.2.1, disk := r.2.2.2 }

/-- `_add_to_memory` (lines 239-263). -/
def addToMemory (st : CacheState) (key : List Char) (entry : CacheEntry) : CacheState :=
  let contentSize := utf8Len entry.content
  let st1 :=
    match lookupKey st.cache key with
    | some old =>
      { st with cache := removeKey st.cache key
                sizeBytes := st.sizeBytes - utf8Len old.content }
    | none => st
  let st2 := evictLoop st1 contentSize
  { st2 with cache := st2.cache ++ [(key, entry)], sizeBytes := st2.sizeBytes + contentSize }

/-- `ContentCache.get` (lines 103-161): memory lookup validated against
the live mtime and TTL (stale entries are deleted — without, in the
source, adjusting `_cache_size_bytes`), falling back to the disk cache
with promotion into memory. -/
def cacheGet (st : CacheState) (path : List Char) (fsMtime : Option Int) (now : Int)
    (forceRefresh : Bool) : Option CacheEntry × CacheState :=
  if forceRefresh then (none, { st with misses := st.misses + 1 })
  else
    match lookupKey st.cache path with
    | some entry =>
      match fsMtime with
      | some m =>
        if entry.file_modified < m then
          (none, { st with cache := removeKey st.cache path, misses := st.misses + 1 })
        else if st.ttl < now - entry.cached_at then
          (none, { st with cache := removeKey st.cache path, misses := st.misses + 1 })
        else
          let entry2 := { entry with access_count := entry.access_count + 1,
                                     last_accessed := now }
          (some entry2,
            { st with cache := removeKey st.cache path ++ [(path, entry2)],
                      hits := st.hits + 1 })
      | none =>
        (none, { st with cache := removeKey st.cache path, misses := st.misses + 1 })
    | none =>
      match diskGet st path fsMtime now with
      | (some dentry, st1) =>
        (some dentry, { addToMemory st1 path dentry with diskHits := st1.diskHits + 1 })
      | (none, st1) => (none, { st1 with misses := st1.misses + 1 })

/-- `ContentCache.put` (lines 163-201): record the current mtime (or the
clock when the stat fails), insert into memory, persist to disk. -/
def cachePut (st : CacheState) (path content : List Char) (metadata : CacheMeta)
    (fsMtime : Option Int) (now : Int) : CacheState × CacheEntry :=
  let mtime := fsMtime.getD now
  let entry : CacheEntry :=
    { content := content, metadata := metadata, file_path := path,
      file_modified := mtime, cached_at := now, access_count := 0, last_accessed := now }
  let st1 := addToMemory st path entry
  ({ st1 with disk := diskPut st1.disk path entry }, entry)

/-- `ContentCache.get_or_parse` (lines 203-237): serve from cache, else
parse (falling back to the synthetic "(parsing failed: ...)" content) and
cache the result. -/
def getOrParse (st : CacheState) (path : List Char) (fsMtime : Option Int) (now : Int)
    (forceRefresh : Bool) (pr : ParseRes) :
    (List Char × CacheMeta × Bool) × CacheState :=
  match cacheGet st path fsMtime now forceRefresh with
  | (some e, st1) => ((e.content, e.metadata, true), st1)
  | (none, st1) =>
    let content :=
      if pr.success then pr.text_content.getD []
      else "(parsing failed: ".toList ++ pr.error.getD [] ++ [')']
    let md :=
      if pr.success then CacheMeta.parsed pr.metadata
      else CacheMeta.failed (pr.error.getD [])
    ((content, md, false), (cachePut st1 path content md fsMtime now).1)

/-- `ContentCache.invalidate` (lines 316-331). -/
def cacheInvalidate (st : CacheState) (path : List Char) : CacheState :=
  let st1 :=
    match lookupKey st.cache path with
    | some e =>
      { st with cache := removeKey st.cache path,
                sizeBytes := st.sizeBytes - utf8Len e.content }
    | none => st
  { st1 with disk := removeKey st1.disk path }

/-- `ContentCache.clear` (lines 333-347). -/
def cacheClear (st : CacheState) : CacheState :=
  { st with cache := [], sizeBytes := 0, disk := [],
            hits := 0, misses := 0, evictions := 0, diskHits := 0 }

/-- The invariant claimed by C10: the byte counter equals the summed
UTF-8 lengths of the entries resident in memory. -/
def sizeInvariant (st : CacheState) : Prop :=
  st.sizeBytes = ((st.cache.map (fun p => utf8Len p.2.content)).sum)

/-! ## Metadata index (`metadata_index.py`)

The SQLite `files` table is a list of rows; `index_file`'s
`INSERT ... ON CONFLICT(path) DO UPDATE` becomes an in-place update when
the path is present.  Timestamps are integers; the filesystem stat enters
as an explicit optional value (`none` = missing file / not a file /
stat error, in which case the function returns `false` and leaves the
table alone). -/

structure FileRow where
  path : List Char
  filename : List Char
  extension : Option (List Char)
  file_type : List Char
  size_bytes : Int
  modified_at : Int
  created_at : Int
  project_id : Option Int
  project_name : Option (List Char)
  indexed_at : Int
deriving Repr, DecidableEq

structure FileStat where
  size : Int
  mtime : Int
  ctime : Int
deriving Repr, DecidableEq

/-- `_classify_file` (lines 348-384): filename-substring rules first
(rfi, submittal, then — after the extension table is set up — spec),
else the extension table, else "other".  `ext` is the lowercased suffix
with its dot. -/
def classifyFile (name ext : List Char) : List Char :=
  let nameLower := pyLower name
  if "rfi".toList <:+: nameLower then "rfi".toList
  else if "submittal".toList <:+: nameLower then "submittal".toList
  else if "spec".toList <:+: nameLower then "specification".toList
  else if ext = ".pdf".toList ∨ ext = ".docx".toList ∨ ext = ".doc".toList then
    "document".toList
  else if ext = ".xlsx".toList ∨ ext = ".xls".toList then "spreadsheet".toList
  else if ext = ".txt".toList ∨ ext = ".md".toList then "text".toList
  else if ext = ".dwg".toList ∨ ext = ".dxf".toList then "drawing".toList
  else if ext = ".rvt".toList ∨ ext = ".rfa".toList then "model".toList
  else if ext = ".png".toList ∨ ext = ".jpg".toList ∨ ext = ".jpeg".toList ∨
      ext = ".gif".toList ∨ ext = ".tif".toList ∨ ext = ".tiff".toList then
    "image".toList
  else "other".toList

/-- `path.suffix.lower().lstrip(".") or None` (line 142). -/
def extColumn (suffix : List Char) : Option (List Char) :=
  let e := (pyLower suffix).dropWhile (fun c => c = '.')
  if e.isEmpty then none else some e

/-- `COALESCE(excluded.col, files.col)`: the new value when supplied,
else the stored one. -/
def coalesce {α : Type} (new old : Option α) : Option α :=
  match new with
  | some p => some p
  | none => old

/-- The `DO UPDATE SET` row transformation of `index_file`'s upsert
(lines 129-137): update every column except `path` and `created_at` in
place on the conflicting row. -/
def upsertRow (pathR name suffix : List Char) (s : FileStat) (projectId : Option Int)
    (projectName : Option (List Char)) (now : Int) (r : FileRow) : FileRow :=
  if r.path = pathR then
    { r with filename := name
             extension := extColumn suffix
             file_type := classifyFile name (pyLower suffix)
             size_bytes := s.size
             modified_at := s.mtime
             project_id := coalesce projectId r.project_id
             project_name := coalesce projectName r.project_name
             indexed_at := now }
  else r

/-- `MetadataIndex.index_file` (lines 96-153): stat, classify, then
upsert by path — updating the conflicting row in place when the path is
present, inserting a fresh row otherwise. -/
def indexFile (table : List FileRow) (pathR name suffix : List Char)
    (stat : Option FileStat) (projectId : Option Int)
    (projectName : Option (List Char)) (now : Int) : Bool × List FileRow :=
  match stat with
  | none => (false, table)
  | some s =>
    if table.any (fun r => decide (r.path = pathR)) then
      (true, table.map (upsertRow pathR name suffix s projectId projectName now))
    else
      (true, table ++ [{ path := pathR
                         filename := name
                         extension := extColumn suffix
                         file_type := classifyFile name (pyLower suffix)
                         size_bytes := s.size
                         modified_at := s.mtime
                         created_at := s.ctime
                         project_id := projectId
                         project_name := projectName
                         indexed_at := now }])

/-- Coverage bookkeeping for `_chunk_generic`'s paragraph loop: a
paragraph whose stripped text reaches the minimum size lives, as a
substring, in an already-emitted chunk text or in the current buffer. -/
def GCover (minSize : Nat) (st : List (List Char) × List Char) (p : List Char) : Prop :=
  minSize ≤ (pyStrip p).length →
    (∃ t ∈ st.1, pyStrip p <:+: t) ∨ pyStrip p <:+: st.2

/-! ## Helper lemmas -/

theorem dropWhile_infix {p : Char → Bool} :
    ∀ (l : List Char) (a : Char) (xs : List Char),
      (a :: xs) <:+: l → p a = false → (a :: xs) <:+: l.dropWhile p := by
  intro l
  induction l with
  | nil =>
    intro a xs h _
    have := h.length_le
    simp at this
  | cons c rest ih =>
    intro a xs h hp
    rw [List.dropWhile_cons]
    by_cases hc : p c = true
    · rw [if_pos hc]
      rcases h with ⟨s, t, hst⟩
      cases s with
      | nil =>
        simp only [List.nil_append, List.cons_append] at hst
        injection hst with h1 _
        rw [← h1] at hc
        rw [hp] at hc
        simp at hc
      | cons c2 s2 =>
        simp only [List.cons_append] at hst
        injection hst with _ h2
        exact ih a xs ⟨s2, t, h2⟩ hp
    · rw [if_neg hc]
      exact h

theorem pyStrip_head (s : List Char) (a : Char) (t : List Char)
    (h : pyStrip s = a :: t) : isPySpace a = false := by
  have hv : (s.dropWhile (fun c => isPySpace c)).reverse.dropWhile (fun c => isPySpace c) =
      (a :: t).reverse := by
    rw [← h, pyStrip, List.reverse_reverse]
  have hsuf := List.dropWhile_suffix
    (l := (s.dropWhile (fun c => isPySpace c)).reverse) (fun c => isPySpace c)
  rw [hv] at hsuf
  have hpre : a :: t <+: s.dropWhile (fun c => isPySpace c) :=
    List.reverse_suffix.1 hsuf
  rcases hpre with ⟨r, hr⟩
  have hmatch := List.head?_dropWhile_not (fun c => isPySpace c) s
  rw [← hr] at hmatch
  simpa using hmatch

theorem pyStrip_last (s : List Char) (h : pyStrip s ≠ []) :
    ∃ ys b, pyStrip s = ys ++ [b] ∧ isPySpace b = false := by
  rcases hv : (s.dropWhile (fun c => isPySpace c)).reverse.dropWhile (fun c => isPySpace c)
    with _ | ⟨b, v2⟩
  · exfalso
    apply h
    rw [pyStrip, hv]
    rfl
  · refine ⟨v2.reverse, b, ?_, ?_⟩
    · rw [pyStrip, hv]
      simp
    · have hmatch := List.head?_dropWhile_not (fun c => isPySpace c)
        (s.dropWhile (fun c => isPySpace c)).reverse
      rw [hv] at hmatch
      simpa using hmatch

theorem pyStrip_infix_pyStrip {y l : List Char} (h : pyStrip y <:+: l)
    (hne : pyStrip y ≠ []) : pyStrip y <:+: pyStrip l := by
  rcases hx : pyStrip y with _ | ⟨a, t⟩
  · exact absurd hx hne
  · have hha : isPySpace a = false := pyStrip_head y a t hx
    obtain ⟨ys, b, hyb, hb⟩ := pyStrip_last y hne
    rw [hx] at h
    have h1 : a :: t <:+: l.dropWhile (fun c => isPySpace c) := dropWhile_infix l a t h hha
    have h2 : (a :: t).reverse <:+: (l.dropWhile (fun c => isPySpace c)).reverse :=
      List.reverse_infix.2 h1
    have h3 : (a :: t).reverse = b :: ys.reverse := by
      rw [← hx, hyb]
      simp
    rw [h3] at h2
    have h4 := dropWhile_infix (p := fun c => isPySpace c) _ b ys.reverse h2 hb
    have h5 : (b :: ys.reverse).reverse <:+:
        ((l.dropWhile (fun c => isPySpace c)).reverse.dropWhile
          (fun c => isPySpace c)).reverse :=
      List.reverse_infix.2 h4
    rw [← h3, List.reverse_reverse] at h5
    exact h5

theorem infix_append_sep (cur para : List Char) :
    para <:+: cur ++ '\n' :: '\n' :: para := by
  refine ⟨cur ++ ['\n', '\n'], [], ?_⟩
  simp

theorem infix_extend_right {x cur : List Char} (h : x <:+: cur) (rest : List Char) :
    x <:+: cur ++ rest :=
  h.trans (List.prefix_append cur rest).isInfix

theorem round4_le_one {q : ℚ} (h : q ≤ 1) : round4 q ≤ 1 := by
  have h1 : q * 10000 ≤ 10000 := by nlinarith
  have h2 : round (q * 10000) ≤ round (10000 : ℚ) := by
    rw [round_eq, round_eq]
    exact Int.floor_le_floor (by linarith)
  have h3 : round (10000 : ℚ) = 10000 := by
    norm_num
  rw [round4]
  rw [div_le_one (by norm_num)]
  exact_mod_cast h3 ▸ h2

theorem round4_mono {p q : ℚ} (h : p ≤ q) : round4 p ≤ round4 q := by
  unfold round4
  have : round (p * 10000) ≤ round (q * 10000) := by
    rw [round_eq, round_eq]
    exact Int.floor_le_floor (by linarith)
  have hq : ((round (p * 10000) : ℤ) : ℚ) ≤ ((round (q * 10000) : ℤ) : ℚ) := by
    exact_mod_cast this
  gcongr

theorem embedBatchCollect_get (f : List Char → List ℚ) (texts : List (List Char)) :
    ∀ (order : List Nat) (acc : List (Option (List ℚ))) (i : Nat),
      (order.foldl (fun acc i => acc.set i (texts[i]?.map f)) acc)[i]? =
        if i ∈ order ∧ i < acc.length then some (texts[i]?.map f) else acc[i]? := by
  intro order
  induction order with
  | nil =>
    intro acc i
    simp
  | cons j rest ih =>
    intro acc i
    rw [List.foldl_cons, ih, List.length_set]
    by_cases hmem : i ∈ rest ∧ i < acc.length
    · rw [if_pos hmem, if_pos ⟨List.mem_cons_of_mem _ hmem.1, hmem.2⟩]
    · rw [if_neg hmem, List.getElem?_set]
      by_cases hij : j = i
      · subst hij
        by_cases hlt : j < acc.length
        · rw [if_pos rfl, if_pos hlt, if_pos ⟨List.mem_cons_self _ _, hlt⟩]
        · rw [if_pos rfl, if_neg hlt,
            if_neg (fun h => hlt h.2), List.getElem?_eq_none (by omega)]
      · rw [if_neg hij]
        have : ¬ (i ∈ j :: rest ∧ i < acc.length) := by
          intro h
          rcases List.mem_cons.1 h.1 with hh | hh
          · exact hij hh.symm
          · exact hmem ⟨hh, h.2⟩
        rw [if_neg this]

theorem lookup_map_update {α β : Type} [DecidableEq α] (key : α) (f : β → β) :
    ∀ (l : List (α × β)) (v : β), lookupKey l key = some v →
      lookupKey (l.map (fun p => if p.1 = key then (p.1, f p.2) else p)) key = some (f v) := by
  intro l
  induction l with
  | nil => intro v hv; simp [lookupKey] at hv
  | cons p rest ih =>
    intro v hv
    rcases p with ⟨a, b⟩
    simp only [List.map_cons]
    by_cases hk : a = key
    · rw [lookupKey, if_pos hk] at hv
      rw [if_pos hk, lookupKey, if_pos hk]
      exact congrArg (fun x => some (f x)) (Option.some.inj hv)
    · rw [lookupKey, if_neg hk] at hv
      rw [if_neg hk, lookupKey, if_neg hk]
      exact ih v hv


theorem mem_mkChunks {fileId : Int} {filename : List Char}
    {pieces : List (List Char × Option (List Char))} {c : Chunk}
    (h : c ∈ mkChunks fileId filename pieces) :
    c.text ∈ pieces.map Prod.fst := by
  rcases List.mem_map.1 h with ⟨p, hp, rfl⟩
  exact List.mem_map.2 ⟨p.2, List.snd_mem_of_mem_enum hp, rfl⟩

theorem genericTexts_foldl_min {size overlap minSize : Nat} :
    ∀ (ps : List (List Char)) (st : List (List Char) × List Char),
      (∀ t ∈ st.1, minSize ≤ t.length) →
      ∀ t ∈ (ps.foldl (genericStep size overlap minSize) st).1, minSize ≤ t.length := by
  intro ps
  induction ps with
  | nil => exact fun st h => h
  | cons p rest ih =>
    intro st h
    apply ih
    unfold genericStep
    by_cases hemp : (pyStrip p).isEmpty
    · rw [if_pos hemp]
      exact h
    · rw [if_neg hemp]
      by_cases hflush : size < st.2.length + (pyStrip p).length ∧ ¬ st.2.isEmpty
      · rw [if_pos hflush]
        by_cases hmin : minSize ≤ st.2.length
        · rw [if_pos hmin]
          intro t ht
          rcases List.mem_append.1 ht with ht | ht
          · exact h t ht
          · rw [List.mem_singleton.1 ht]
            exact hmin
        · rw [if_neg hmin]
          exact h
      · rw [if_neg hflush]
        exact h

theorem genericTexts_min {size overlap minSize : Nat} {text : List Char} :
    ∀ t ∈ genericTexts size overlap minSize text, minSize ≤ t.length := by
  intro t ht
  unfold genericTexts at ht
  by_cases hfin : ¬ ((splitBlankLines text).foldl (genericStep size overlap minSize)
      ([], [])).2.isEmpty ∧
      minSize ≤ ((splitBlankLines text).foldl (genericStep size overlap minSize) ([], [])).2.length
  · rw [if_pos hfin] at ht
    rcases List.mem_append.1 ht with ht | ht
    · exact genericTexts_foldl_min (splitBlankLines text) ([], []) (by intro t ht; cases ht) t ht
    · rw [List.mem_singleton.1 ht]
      exact hfin.2
  · rw [if_neg hfin] at ht
    exact genericTexts_foldl_min (splitBlankLines text) ([], []) (by intro t ht; cases ht) t ht

theorem chunkGeneric_min {size overlap minSize : Nat} {fileId : Int}
    {filename text : List Char} :
    ∀ c ∈ chunkGeneric size overlap minSize fileId filename text, minSize ≤ c.text.length := by
  intro c hc
  have h := mem_mkChunks hc
  rw [List.map_map] at h
  rcases List.mem_map.1 h with ⟨t, ht, hteq⟩
  rw [← hteq]
  exact genericTexts_min t ht

theorem specPieceFor_min {size overlap minSize : Nat} {sec title : List Char} :
    ∀ p ∈ specPieceFor size overlap minSize sec title, minSize ≤ p.1.length := by
  intro p hp
  unfold specPieceFor at hp
  by_cases hbig : size * 2 < sec.length
  · rw [if_pos hbig] at hp
    rcases List.mem_map.1 hp with ⟨w, hw, rfl⟩
    have := List.of_mem_filter hw
    exact of_decide_eq_true this
  · rw [if_neg hbig] at hp
    by_cases hmin : minSize ≤ sec.length
    · rw [if_pos hmin] at hp
      rw [List.mem_singleton.1 hp]
      exact hmin
    · rw [if_neg hmin] at hp
      cases hp

theorem mkChunks_fid {fileId : Int} {filename : List Char}
    {pieces : List (List Char × Option (List Char))} {c : Chunk}
    (h : c ∈ mkChunks fileId filename pieces) : c.source_file_id = fileId := by
  rcases List.mem_map.1 h with ⟨p, _, rfl⟩
  rfl

theorem mkChunks_indices (fileId : Int) (filename : List Char)
    (pieces : List (List Char × Option (List Char))) :
    (mkChunks fileId filename pieces).map Chunk.chunk_index =
      List.range (mkChunks fileId filename pieces).length := by
  unfold mkChunks
  rw [List.map_map, List.length_map]
  have h1 : (Chunk.chunk_index ∘ fun p : Nat × (List Char × Option (List Char)) =>
      ({ text := p.2.1, source_file_id := fileId, source_filename := filename,
         chunk_index := p.1, section_title := p.2.2, page_number := none } : Chunk)) =
      Prod.fst := by
    funext p
    rfl
  rw [h1, List.enum_map_fst]
  congr 1
  exact List.enum_length.symm

theorem chunkDocument_eq_mkChunks (size overlap minSize : Nat) (fileId : Int)
    (filename text contentType : List Char) :
    ∃ pieces, chunkDocument size overlap minSize fileId filename text contentType =
      mkChunks fileId filename pieces := by
  unfold chunkDocument chunkSpecification chunkGeneric
  by_cases h1 : text.isEmpty = true ∨ (pyStrip text).length < minSize
  · exact ⟨[], by rw [if_pos h1]; rfl⟩
  · rw [if_neg h1]
    by_cases h2 : contentType = "specification".toList
    · rw [if_pos h2]
      by_cases h3 : (findHeaders text).isEmpty
      · rw [if_pos h3]
        exact ⟨_, rfl⟩
      · rw [if_neg h3]
        exact ⟨_, rfl⟩
    · rw [if_neg h2]
      exact ⟨_, rfl⟩

theorem chunkDocument_fid (size overlap minSize : Nat) (fileId : Int)
    (filename text contentType : List Char) :
    ∀ c ∈ chunkDocument size overlap minSize fileId filename text contentType,
      c.source_file_id = fileId := by
  rcases chunkDocument_eq_mkChunks size overlap minSize fileId filename text contentType
    with ⟨pieces, hp⟩
  rw [hp]
  exact fun c hc => mkChunks_fid hc

theorem chunkDocument_ids_distinct (size overlap minSize : Nat) (fileId : Int)
    (filename text contentType : List Char) :
    List.Pairwise (fun a b => a ≠ b)
      ((chunkDocument size overlap minSize fileId filename text contentType).map
        (fun c => ((fileId, c.chunk_index) : Int × Nat))) := by
  rcases chunkDocument_eq_mkChunks size overlap minSize fileId filename text contentType
    with ⟨pieces, hp⟩
  rw [hp]
  have h1 : (mkChunks fileId filename pieces).map (fun c => ((fileId, c.chunk_index) : Int × Nat)) =
      ((mkChunks fileId filename pieces).map Chunk.chunk_index).map (fun i => (fileId, i)) := by
    rw [List.map_map]
    rfl
  rw [h1, mkChunks_indices]
  rw [List.pairwise_map]
  exact (List.pairwise_lt_range _).imp (by intro a b hab h; rw [Prod.mk.injEq] at h; omega)

theorem deleteByFileId_idem (store : List StoreRecord) (fileId : Int) :
    (deleteByFileId (deleteByFileId store fileId).2 fileId).2 =
      (deleteByFileId store fileId).2 := by
  unfold deleteByFileId
  simp only [List.filter_filter]
  congr 1
  funext a
  rw [Bool.and_self]

theorem deleteByFileId_addDocuments (store : List StoreRecord) (recs : List StoreRecord)
    (fileId : Int) (h : ∀ r ∈ recs, r.metadata.source_file_id = fileId) :
    (deleteByFileId (addDocuments (deleteByFileId store fileId).2 recs) fileId).2 =
      (deleteByFileId store fileId).2 := by
  unfold deleteByFileId addDocuments
  simp only [List.filter_append, List.filter_filter]
  have h1 : recs.filter (fun r => decide ¬ r.metadata.source_file_id = fileId) = [] := by
    refine List.filter_eq_nil_iff.2 ?_
    intro r hr
    simp [h r hr]
  rw [h1, List.append_nil]
  congr 1
  funext a
  rw [Bool.and_self]

theorem indexDocument_blank (size overlap minSize : Nat) (embed : List Char → List ℚ)
    (store : List StoreRecord) (content : List Char) (fileId : Int) (filename : List Char)
    (isSpecification : Bool)
    (h : content.isEmpty = true ∨ (pyStrip content).isEmpty = true) :
    indexDocument size overlap minSize embed store content fileId filename isSpecification =
      (0, store) := by
  unfold indexDocument
  rw [if_pos h]

theorem indexDocument_nochunks (size overlap minSize : Nat) (embed : List Char → List ℚ)
    (store : List StoreRecord) (content : List Char) (fileId : Int) (filename : List Char)
    (isSpecification : Bool)
    (h : ¬ (content.isEmpty = true ∨ (pyStrip content).isEmpty = true))
    (hnil : (chunkDocument size overlap minSize fileId filename content
      (if isSpecification then "specification".toList else "other".toList)).isEmpty = true) :
    indexDocument size overlap minSize embed store content fileId filename isSpecification =
      (0, (deleteByFileId store fileId).2) := by
  unfold indexDocument
  rw [if_neg h]
  simp only [hnil, if_true]

theorem indexDocument_add (size overlap minSize : Nat) (embed : List Char → List ℚ)
    (store : List StoreRecord) (content : List Char) (fileId : Int) (filename : List Char)
    (isSpecification : Bool)
    (h : ¬ (content.isEmpty = true ∨ (pyStrip content).isEmpty = true))
    (hnil : ¬ (chunkDocument size overlap minSize fileId filename content
      (if isSpecification then "specification".toList else "other".toList)).isEmpty = true) :
    indexDocument size overlap minSize embed store content fileId filename isSpecification =
      ((chunkDocument size overlap minSize fileId filename content
          (if isSpecification then "specification".toList else "other".toList)).length,
        addDocuments (deleteByFileId store fileId).2
          ((chunkDocument size overlap minSize fileId filename content
            (if isSpecification then "specification".toList else "other".toList)).map
            (fun c =>
              { id := (fileId, c.chunk_index)
                text := c.text
                embedding := embed c.text
                metadata :=
                  { source_file_id := c.source_file_id
                    source_filename := c.source_filename
                    chunk_index := c.chunk_index
                    section_title := c.section_title.getD []
                    page_number := c.page_number.getD 0 } }))) := by
  unfold indexDocument
  rw [if_neg h]
  simp only [hnil, if_false]
  rfl

theorem find?_path_map {f : FileRow → FileRow} (hf : ∀ r, (f r).path = r.path)
    (pathR : List Char) :
    ∀ (l : List FileRow) (row : FileRow),
      l.find? (fun r => decide (r.path = pathR)) = some row →
      (l.map f).find? (fun r => decide (r.path = pathR)) = some (f row) := by
  intro l
  induction l with
  | nil => intro row hrow; simp [List.find?] at hrow
  | cons a rest ih =>
    intro row hrow
    by_cases hp : a.path = pathR
    · rw [List.find?_cons_of_pos _ (by simp [hp])] at hrow
      rw [List.map_cons, List.find?_cons_of_pos _ (by simp [hf, hp])]
      rw [Option.some.inj hrow]
    · rw [List.find?_cons_of_neg _ (by simp [hp])] at hrow
      rw [List.map_cons, List.find?_cons_of_neg _ (by simp [hf, hp])]
      exact ih row hrow

theorem lookupKey_removeKey {β : Type} (l : List (List Char × β)) (k : List Char) :
    lookupKey (removeKey l k) k = none := by
  induction l with
  | nil => rfl
  | cons p rest ih =>
    unfold removeKey at ih ⊢
    rw [List.filter_cons]
    by_cases hp : p.1 = k
    · rw [if_neg (by simp [hp])]
      exact ih
    · rw [if_pos (by simp [hp])]
      rw [lookupKey, if_neg hp]
      exact ih

theorem lookupKey_append_single {β : Type} (l : List (List Char × β)) (k : List Char)
    (e : β) (h : lookupKey l k = none) : lookupKey (l ++ [(k, e)]) k = some e := by
  induction l with
  | nil => simp [lookupKey]
  | cons p rest ih =>
    rw [lookupKey] at h
    by_cases hp : p.1 = k
    · rw [if_pos hp] at h
      cases h
    · rw [if_neg hp] at h
      rw [List.cons_append, lookupKey, if_neg hp]
      exact ih h

theorem lookupKey_evictLoopGo (maxItems : Nat) (maxBytes contentSize : Int) :
    ∀ (cache : List (List Char × CacheEntry)) (size : Int) (ev : Nat)
      (disk : List (List Char × CacheEntry)) (k : List Char),
      lookupKey cache k = none →
      lookupKey (evictLoopGo maxItems maxBytes contentSize cache size ev disk).1 k = none := by
  intro cache
  induction cache with
  | nil => intro size ev disk k h; exact h
  | cons p rest ih =>
    intro size ev disk k h
    rcases p with ⟨pk, pe⟩
    rw [lookupKey] at h
    by_cases hp : pk = k
    · rw [if_pos hp] at h
      cases h
    · rw [if_neg hp] at h
      rw [evictLoopGo]
      by_cases hcond : maxItems ≤ ((pk, pe) :: rest).length ∨
          maxBytes < size + contentSize
      · rw [if_pos hcond]
        exact ih _ _ _ k h
      · rw [if_neg hcond]
        rw [lookupKey, if_neg hp]
        exact h

theorem genericStep_empty {size overlap minSize : Nat}
    {st : List (List Char) × List Char} {p0 : List Char}
    (hemp : (pyStrip p0).isEmpty = true) :
    genericStep size overlap minSize st p0 = st := by
  simp only [genericStep]
  rw [if_pos hemp]

theorem genericStep_flush {size overlap minSize : Nat}
    {st : List (List Char) × List Char} {p0 : List Char}
    (hemp : ¬ (pyStrip p0).isEmpty = true)
    (hfl : size < st.2.length + (pyStrip p0).length ∧ ¬ st.2.isEmpty = true) :
    genericStep size overlap minSize st p0 =
      ((if minSize ≤ st.2.length then st.1 ++ [st.2] else st.1),
        st.2.drop (st.2.length - overlap) ++ '\n' :: '\n' :: pyStrip p0) := by
  simp only [genericStep]
  rw [if_neg hemp, if_pos hfl]

theorem genericStep_acc {size overlap minSize : Nat}
    {st : List (List Char) × List Char} {p0 : List Char}
    (hemp : ¬ (pyStrip p0).isEmpty = true)
    (hfl : ¬ (size < st.2.length + (pyStrip p0).length ∧ ¬ st.2.isEmpty = true)) :
    genericStep size overlap minSize st p0 =
      (st.1, pyStrip (st.2 ++ '\n' :: '\n' :: pyStrip p0)) := by
  simp only [genericStep]
  rw [if_neg hemp, if_neg hfl]

theorem pyStrip_ne_nil_of_min {minSize : Nat} {q : List Char} (hmin : 1 ≤ minSize)
    (hlen : minSize ≤ (pyStrip q).length) : pyStrip q ≠ [] := by
  intro hq
  rw [hq] at hlen
  simp at hlen
  omega

theorem genericStep_cover {size overlap minSize : Nat} (hmin : 1 ≤ minSize)
    (st : List (List Char) × List Char) (p0 : List Char) :
    (∀ q, GCover minSize st q →
        GCover minSize (genericStep size overlap minSize st p0) q) ∧
      GCover minSize (genericStep size overlap minSize st p0) p0 := by
  by_cases hemp : (pyStrip p0).isEmpty = true
  · rw [genericStep_empty hemp]
    refine ⟨fun q hq => hq, ?_⟩
    intro hlen
    rw [List.isEmpty_iff] at hemp
    rw [hemp] at hlen
    simp at hlen
    omega
  · by_cases hfl : size < st.2.length + (pyStrip p0).length ∧ ¬ st.2.isEmpty = true
    · rw [genericStep_flush hemp hfl]
      constructor
      · intro q hq hlen
        rcases hq hlen with ⟨t, ht, hinf⟩ | hinf
        · refine Or.inl ⟨t, ?_, hinf⟩
          by_cases hcmin : minSize ≤ st.2.length
          · rw [if_pos hcmin]
            exact List.mem_append_left _ ht
          · rw [if_neg hcmin]
            exact ht
        · by_cases hcmin : minSize ≤ st.2.length
          · refine Or.inl ⟨st.2, ?_, hinf⟩
            rw [if_pos hcmin]
            exact List.mem_append_right _ (List.mem_singleton.2 rfl)
          · exfalso
            have := hinf.length_le
            omega
      · intro _
        exact Or.inr (infix_append_sep _ _)
    · rw [genericStep_acc hemp hfl]
      constructor
      · intro q hq hlen
        rcases hq hlen with ⟨t, ht, hinf⟩ | hinf
        · exact Or.inl ⟨t, ht, hinf⟩
        · refine Or.inr ?_
          exact pyStrip_infix_pyStrip
            (infix_extend_right hinf ('\n' :: '\n' :: pyStrip p0))
            (pyStrip_ne_nil_of_min hmin hlen)
      · intro hlen
        exact Or.inr (pyStrip_infix_pyStrip (infix_append_sep _ _)
          (pyStrip_ne_nil_of_min hmin hlen))

theorem genericFold_cover {size overlap minSize : Nat} (hmin : 1 ≤ minSize) :
    ∀ (ps : List (List Char)) (st : List (List Char) × List Char) (q : List Char),
      (GCover minSize st q ∨ q ∈ ps) →
      GCover minSize (ps.foldl (genericStep size overlap minSize) st) q := by
  intro ps
  induction ps with
  | nil =>
    intro st q hq
    rcases hq with hq | hq
    · exact hq
    · cases hq
  | cons p rest ih =>
    intro st q hq
    rw [List.foldl_cons]
    rcases hq with hq | hq
    · exact ih _ q (Or.inl ((genericStep_cover hmin st p).1 q hq))
    · rcases List.mem_cons.1 hq with rfl | hq
      · exact ih _ q (Or.inl (genericStep_cover hmin st q).2)
      · exact ih _ q (Or.inr hq)

theorem genericTexts_cover {size overlap minSize : Nat} (hmin : 1 ≤ minSize)
    (text : List Char) :
    ∀ p ∈ splitBlankLines text, minSize ≤ (pyStrip p).length →
      ∃ t ∈ genericTexts size overlap minSize text, pyStrip p <:+: t := by
  intro p hp hlen
  have h := @genericFold_cover size overlap minSize hmin
    (splitBlankLines text) ([], []) p (Or.inr hp) hlen
  unfold genericTexts
  rcases h with ⟨t, ht, hinf⟩ | hinf
  · by_cases hfin : ¬ ((splitBlankLines text).foldl (genericStep size overlap minSize)
        ([], [])).2.isEmpty = true ∧
        minSize ≤ ((splitBlankLines text).foldl (genericStep size overlap minSize)
          ([], [])).2.length
    · rw [if_pos hfin]
      exact ⟨t, List.mem_append_left _ ht, hinf⟩
    · rw [if_neg hfin]
      exact ⟨t, ht, hinf⟩
  · by_cases hfin : ¬ ((splitBlankLines text).foldl (genericStep size overlap minSize)
        ([], [])).2.isEmpty = true ∧
        minSize ≤ ((splitBlankLines text).foldl (genericStep size overlap minSize)
          ([], [])).2.length
    · rw [if_pos hfin]
      exact ⟨_, List.mem_append_right _ (List.mem_singleton.2 rfl), hinf⟩
    · exfalso
      have hle := hinf.length_le
      by_cases hempt : ((splitBlankLines text).foldl (genericStep size overlap minSize)
          ([], [])).2.isEmpty = true
      · rw [List.isEmpty_iff] at hempt
        rw [hempt] at hle
        simp only [List.length_nil] at hle
        omega
      · have hlt : ((splitBlankLines text).foldl (genericStep size overlap minSize)
            ([], [])).2.length < minSize := by
          by_contra hge
          exact hfin ⟨hempt, by omega⟩
        omega

theorem exists_mkChunks (fileId : Int) (filename : List Char)
    (pieces : List (List Char × Option (List Char)))
    (p : List Char × Option (List Char)) (hp : p ∈ pieces) :
    ∃ c ∈ mkChunks fileId filename pieces, c.text = p.1 := by
  rcases List.mem_iff_getElem?.1 hp with ⟨i, hi⟩
  exact ⟨_, List.mem_map.2 ⟨(i, p), List.mem_enum_iff_getElem?.2 hi, rfl⟩, rfl⟩

theorem rfindDotSpace_lo {text : List Char} {lo hi j : Nat}
    (h : rfindDotSpace text lo hi = some j) : lo ≤ j := by
  unfold rfindDotSpace at h
  have hmem := List.max?_mem (fun a b => max_choice a b) h
  rw [List.mem_filter] at hmem
  have h2 := hmem.2
  simp only [Bool.and_eq_true, decide_eq_true_eq] at h2
  exact h2.1.1.1

theorem splitBySizeSpansGo_succ (size overlap : Nat) (text : List Char)
    (fuel start : Nat) (h : start < text.length) :
    ∃ e, splitBySizeSpansGo size overlap text (fuel + 1) start =
        (start, e) :: splitBySizeSpansGo size overlap text fuel (e - overlap) ∧
      (1 ≤ size → start + size / 2 + 1 ≤ e) := by
  by_cases h2 : start + size < text.length
  · rcases hbp : rfindDotSpace text (start + size / 2) (start + size + 100) with _ | bp
    · refine ⟨start + size, ?_, ?_⟩
      · simp only [splitBySizeSpansGo]
        rw [if_pos h, if_pos h2, hbp]
      · intro hsz
        have : size / 2 < size := Nat.div_lt_self (by omega) (by omega)
        omega
    · by_cases h3 : start < bp
      · refine ⟨bp + 1, ?_, ?_⟩
        · simp only [splitBySizeSpansGo]
          rw [if_pos h, if_pos h2, hbp]
          simp only [if_pos h3]
        · intro _
          have := rfindDotSpace_lo hbp
          omega
      · refine ⟨start + size, ?_, ?_⟩
        · simp only [splitBySizeSpansGo]
          rw [if_pos h, if_pos h2, hbp]
          simp only [if_neg h3]
        · intro hsz
          have : size / 2 < size := Nat.div_lt_self (by omega) (by omega)
          omega
  · refine ⟨start + size, ?_, ?_⟩
    · simp only [splitBySizeSpansGo]
      rw [if_pos h, if_neg h2]
    · intro hsz
      have : size / 2 < size := Nat.div_lt_self (by omega) (by omega)
      omega

theorem splitBySizeSpans_cover (size overlap : Nat) (text : List Char)
    (hsz : 1 ≤ size) (hov : overlap ≤ size / 2) :
    ∀ i, i < text.length →
      ∃ sp ∈ splitBySizeSpans size overlap text, sp.1 ≤ i ∧ i < sp.2 := by
  suffices h : ∀ (fuel start i : Nat), start ≤ i → i < text.length →
      text.length - start < fuel →
      ∃ sp ∈ splitBySizeSpansGo size overlap text fuel start, sp.1 ≤ i ∧ i < sp.2 by
    intro i hi
    exact h (text.length + 1) 0 i (Nat.zero_le i) hi (by omega)
  intro fuel
  induction fuel with
  | zero =>
    intro start i h1 h2 h3
    omega
  | succ fuel ih =>
    intro start i h1 h2 h3
    have hstart : start < text.length := by omega
    obtain ⟨e, heq, hbound⟩ := splitBySizeSpansGo_succ size overlap text fuel start hstart
    have hb := hbound hsz
    rw [heq]
    by_cases hie : i < e
    · exact ⟨(start, e), List.mem_cons_self _ _, h1, hie⟩
    · push_neg at hie
      obtain ⟨sp, hsp, hsp2⟩ := ih (e - overlap) i (by omega) h2 (by omega)
      exact ⟨sp, List.mem_cons_of_mem _ hsp, hsp2⟩

/-! ## Claim theorems -/

/-- C7: a memory-cached entry is served only while the live mtime has not
advanced past the cached value and its age is within the TTL; if the
file's mtime has advanced, the next `get_or_parse` treats it as a miss
(evicting it), returns `was_cached = false`, and returns and re-caches
freshly parsed content. -/
theorem C7_cache_mtime_invalidation (st : CacheState) (path : List Char) (m now : Int)
    (pr : ParseRes) (e : CacheEntry)
    (hmem : lookupKey st.cache path = some e) :
    ((cacheGet st path (some m) now false).1.isSome = true ↔
        (m ≤ e.file_modified ∧ now - e.cached_at ≤ st.ttl)) ∧
      (e.file_modified < m →
        (getOrParse st path (some m) now false pr).1.2.2 = false ∧
        (getOrParse st path (some m) now false pr).1.1 =
          (if pr.success then pr.text_content.getD []
           else "(parsing failed: ".toList ++ pr.error.getD [] ++ [')']) ∧
        lookupKey ((getOrParse st path (some m) now false pr).2).cache path =
          some { content :=
                   (if pr.success then pr.text_content.getD []
                    else "(parsing failed: ".toList ++ pr.error.getD [] ++ [')'])
                 metadata :=
                   (if pr.success then CacheMeta.parsed pr.metadata
                    else CacheMeta.failed (pr.error.getD []))
                 file_path := path
                 file_modified := m
                 cached_at := now
                 access_count := 0
                 last_accessed := now }) := by
  constructor
  · unfold cacheGet
    simp only [Bool.false_eq_true, if_false, hmem]
    by_cases hm : e.file_modified < m
    · rw [if_pos hm]
      simp only [Option.isSome_none, Bool.false_eq_true, false_iff]
      intro hc
      omega
    · rw [if_neg hm]
      by_cases httl : st.ttl < now - e.cached_at
      · rw [if_pos httl]
        simp only [Option.isSome_none, Bool.false_eq_true, false_iff]
        intro hc
        omega
      · rw [if_neg httl]
        simp only [Option.isSome_some, true_iff]
        omega
  · intro hstale
    have hget : cacheGet st path (some m) now false =
        (none, { st with cache := removeKey st.cache path, misses := st.misses + 1 }) := by
      unfold cacheGet
      simp only [Bool.false_eq_true, if_false, hmem]
      rw [if_pos hstale]
    unfold getOrParse
    rw [hget]
    refine ⟨rfl, rfl, ?_⟩
    unfold cachePut addToMemory
    simp only [Option.getD_some]
    rw [lookupKey_removeKey]
    simp only [evictLoop]
    exact lookupKey_append_single _ _ _
      (lookupKey_evictLoopGo _ _ _ _ _ _ _ _ (lookupKey_removeKey _ _))

theorem C7_cache_mtime_invalidation_witness :
    ((10 : Int) < 11) ∧
      (getOrParse
          ((cachePut ⟨[], 0, 500, 100000000, 86400, [], 0, 0, 0, 0⟩ ['p'] "hello".toList
            (CacheMeta.parsed []) (some 10) 100).1)
          ['p'] (some 11) 101 false ⟨true, some "fresh".toList, [], none⟩).1.2.2 = false ∧
      (getOrParse
          ((cachePut ⟨[], 0, 500, 100000000, 86400, [], 0, 0, 0, 0⟩ ['p'] "hello".toList
            (CacheMeta.parsed []) (some 10) 100).1)
          ['p'] (some 11) 101 false ⟨true, some "fresh".toList, [], none⟩).1.1 =
        (if (true : Bool) then (some "fresh".toList).getD []
         else "(parsing failed: ".toList ++ (none : Option (List Char)).getD [] ++ [')']) := by
  have h := C7_cache_mtime_invalidation
    ((cachePut ⟨[], 0, 500, 100000000, 86400, [], 0, 0, 0, 0⟩ ['p'] "hello".toList
      (CacheMeta.parsed []) (some 10) 100).1)
    ['p'] 11 101 ⟨true, some "fresh".toList, [], none⟩
    ⟨"hello".toList, CacheMeta.parsed [], ['p'], 10, 100, 0, 100⟩
    (by decide)
  have h2 := h.2 (by decide)
  exact ⟨by decide, h2.1, h2.2.1⟩

/-- C10: the byte-counter invariant breaks on the mtime-invalidation path
of `get`.  Concretely: cache `'p' ↦ "hello"` (5 UTF-8 bytes, mtime 10);
the invariant holds.  The file's mtime advances to 11 and `get('p')` is
called: the stale entry is deleted from the memory cache, but
`_cache_size_bytes` is not decremented (source lines 128-142 `del
self._cache[key]` without any size adjustment, unlike `invalidate` and
`_add_to_memory`), leaving the counter at 5 over an empty cache. -/
theorem C10_size_counter_leak :
    sizeInvariant
      ((cachePut ⟨[], 0, 500, 100000000, 86400, [], 0, 0, 0, 0⟩ ['p'] "hello".toList
        (CacheMeta.parsed []) (some 10) 100).1) ∧
      ((cacheGet
          ((cachePut ⟨[], 0, 500, 100000000, 86400, [], 0, 0, 0, 0⟩ ['p'] "hello".toList
            (CacheMeta.parsed []) (some 10) 100).1)
          ['p'] (some 11) 101 false).2.cache = []) ∧
      ((cacheGet
          ((cachePut ⟨[], 0, 500, 100000000, 86400, [], 0, 0, 0, 0⟩ ['p'] "hello".toList
            (CacheMeta.parsed []) (some 10) 100).1)
          ['p'] (some 11) 101 false).2.sizeBytes = 5) ∧
      ¬ sizeInvariant
        ((cacheGet
          ((cachePut ⟨[], 0, 500, 100000000, 86400, [], 0, 0, 0, 0⟩ ['p'] "hello".toList
            (CacheMeta.parsed []) (some 10) 100).1)
          ['p'] (some 11) 101 false).2) := by
  refine ⟨?_, by decide, by decide, ?_⟩
  · unfold sizeInvariant
    decide
  · unfold sizeInvariant
    decide

set_option maxRecDepth 4096 in
/-- C5 counterexample: with the default configuration (chunk size 1000,
overlap 200, minimum 100), a specification document consisting of 150
characters of preamble followed by a detected section header and its
section loses the entire preamble: a 150-character span — well above the
minimum-chunk-size floor — appears in no produced chunk, so the claim as
stated is false on this input. -/
theorem C5_chunk_coverage_counterexample :
    (List.replicate 150 'z' <:+:
        (List.replicate 150 'z' ++ '\n' :: ("1.1 ".toList ++ List.replicate 107 'A'))) ∧
      100 ≤ (List.replicate 150 'z').length ∧
      (chunkDocument 1000 200 100 7 ['f']
        (List.replicate 150 'z' ++ '\n' :: ("1.1 ".toList ++ List.replicate 107 'A'))
        "specification".toList).length = 1 ∧
      ∀ c ∈ chunkDocument 1000 200 100 7 ['f']
          (List.replicate 150 'z' ++ '\n' :: ("1.1 ".toList ++ List.replicate 107 'A'))
          "specification".toList,
        ¬ (List.replicate 150 'z' <:+: c.text) := by
  refine ⟨⟨[], '\n' :: ("1.1 ".toList ++ List.replicate 107 'A'), rfl⟩,
    by decide, by decide, by decide⟩

/-- C5 (amended): no span of the input is silently dropped except content
below the minimum-chunk-size floor and, for specification documents with
detected section headers, content preceding the first detected header.
Concretely: (1) an input whose stripped text is below the floor produces
no chunks at all; (2) under generic chunking (and the spec fallback with
no headers), every blank-line-delimited paragraph whose stripped text
reaches the floor appears verbatim inside some chunk; (3) under
section-aware chunking, every detected section at or above the floor
(and at most twice the chunk size) is itself a chunk text, and an
oversized section is decomposed into windows that jointly cover every
character position of the section, each window becoming a chunk unless
its stripped text falls below the floor. -/
theorem C5_chunk_coverage_amended (size overlap minSize : Nat) (fileId : Int)
    (filename text contentType : List Char) (hmin : 1 ≤ minSize) :
    ((text.isEmpty = true ∨ (pyStrip text).length < minSize) →
      chunkDocument size overlap minSize fileId filename text contentType = []) ∧
      (¬ (text.isEmpty = true ∨ (pyStrip text).length < minSize) →
        (contentType ≠ "specification".toList ∨ findHeaders text = []) →
        ∀ p ∈ splitBlankLines text, minSize ≤ (pyStrip p).length →
          ∃ c ∈ chunkDocument size overlap minSize fileId filename text contentType,
            pyStrip p <:+: c.text) ∧
      (¬ (text.isEmpty = true ∨ (pyStrip text).length < minSize) →
        contentType = "specification".toList →
        findHeaders text ≠ [] →
        ∀ sec ∈ sectionsOf text (findHeaders text),
          (minSize ≤ sec.1.length → ¬ size * 2 < sec.1.length →
            ∃ c ∈ chunkDocument size overlap minSize fileId filename text contentType,
              c.text = sec.1) ∧
          (size * 2 < sec.1.length →
            (∀ w ∈ splitBySizeWindows size overlap sec.1,
              minSize ≤ (pyStrip w).length →
              ∃ c ∈ chunkDocument size overlap minSize fileId filename text contentType,
                c.text = pyStrip w) ∧
            (1 ≤ size → overlap ≤ size / 2 →
              ∀ i, i < sec.1.length →
                ∃ sp ∈ splitBySizeSpans size overlap sec.1, sp.1 ≤ i ∧ i < sp.2))) := by
  refine ⟨?_, ?_, ?_⟩
  · intro hblank
    unfold chunkDocument
    rw [if_pos hblank]
  · intro hblank hgen p hp hlen
    have hmain : ∀ eq : chunkDocument size overlap minSize fileId filename text
          contentType = chunkGeneric size overlap minSize fileId filename text,
        ∃ c ∈ chunkDocument size overlap minSize fileId filename text contentType,
          pyStrip p <:+: c.text := by
      intro heq
      rw [heq]
      obtain ⟨t, ht, hinf⟩ := genericTexts_cover hmin text p hp hlen
      obtain ⟨c, hc, hct⟩ := exists_mkChunks fileId filename
        ((genericTexts size overlap minSize text).map (fun t => (t, none)))
        (t, none) (List.mem_map.2 ⟨t, ht, rfl⟩)
      exact ⟨c, hc, by rw [hct]; exact hinf⟩
    by_cases hspec : contentType = "specification".toList
    · rcases hgen with hct | hhd
      · exact absurd hspec hct
      · refine hmain ?_
        simp only [chunkDocument, chunkSpecification]
        rw [if_neg hblank, if_pos hspec, if_pos (by rw [hhd]; rfl)]
    · refine hmain ?_
      unfold chunkDocument
      rw [if_neg hblank, if_neg hspec]
  · intro hblank hspec hne sec hsec
    have heqspec : chunkDocument size overlap minSize fileId filename text contentType =
        mkChunks fileId filename (((sectionsOf text (findHeaders text)).map
          (fun s => specPieceFor size overlap minSize s.1 s.2)).flatten) := by
      simp only [chunkDocument, chunkSpecification]
      rw [if_neg hblank, if_pos hspec,
        if_neg (fun hh => hne (List.isEmpty_iff.1 hh))]
    constructor
    · intro hminle hbig
      rw [heqspec]
      have hp : (sec.1, some sec.2) ∈ specPieceFor size overlap minSize sec.1 sec.2 := by
        unfold specPieceFor
        rw [if_neg hbig, if_pos hminle]
        exact List.mem_singleton.2 rfl
      have hpf : (sec.1, some sec.2) ∈ ((sectionsOf text (findHeaders text)).map
          (fun s => specPieceFor size overlap minSize s.1 s.2)).flatten :=
        List.mem_flatten.2 ⟨_, List.mem_map.2 ⟨sec, hsec, rfl⟩, hp⟩
      exact exists_mkChunks fileId filename _ _ hpf
    · intro hbig
      constructor
      · intro w hw hwlen
        rw [heqspec]
        have hmemtexts : pyStrip w ∈ splitBySizeTexts size overlap minSize sec.1 := by
          unfold splitBySizeTexts
          exact List.mem_filter.2 ⟨List.mem_map.2 ⟨w, hw, rfl⟩, by simpa using hwlen⟩
        have hp : (pyStrip w, some sec.2) ∈
            specPieceFor size overlap minSize sec.1 sec.2 := by
          unfold specPieceFor
          rw [if_pos hbig]
          exact List.mem_map.2 ⟨pyStrip w, hmemtexts, rfl⟩
        have hpf : (pyStrip w, some sec.2) ∈ ((sectionsOf text (findHeaders text)).map
            (fun s => specPieceFor size overlap minSize s.1 s.2)).flatten :=
          List.mem_flatten.2 ⟨_, List.mem_map.2 ⟨sec, hsec, rfl⟩, hp⟩
        exact exists_mkChunks fileId filename _ _ hpf
      · intro hsz hov i hi
        exact splitBySizeSpans_cover size overlap sec.1 hsz hov i hi

theorem C5_chunk_coverage_amended_witness :
    ∃ c ∈ chunkDocument 20 4 5 1 ['f'] "aaaaa bbbbb ccccc ddddd".toList "other".toList,
      pyStrip "aaaaa bbbbb ccccc ddddd".toList <:+: c.text := by
  have h := C5_chunk_coverage_amended 20 4 5 1 ['f'] "aaaaa bbbbb ccccc ddddd".toList
    "other".toList (by decide)
  exact h.2.1 (by decide) (Or.inl (by decide)) "aaaaa bbbbb ccccc ddddd".toList
    (by decide) (by decide)

/-- C9: `index_file` upserts by path: a second call for an already-indexed
path updates that row's fields in place (leaving every path, hence the
row count and path uniqueness, unchanged) and, when no project id/name is
supplied, preserves the previously stored project id and name
(`COALESCE` semantics). -/
theorem C9_index_file_upsert (table : List FileRow) (pathR name suffix : List Char)
    (s : FileStat) (projectId : Option Int) (projectName : Option (List Char))
    (now : Int) (row : FileRow)
    (hrow : table.find? (fun r => decide (r.path = pathR)) = some row)
    (huniq : (table.map FileRow.path).Pairwise (fun a b => a ≠ b)) :
    (indexFile table pathR name suffix (some s) projectId projectName now).1 = true ∧
      (indexFile table pathR name suffix (some s) projectId projectName now).2.map
          FileRow.path = table.map FileRow.path ∧
      ((indexFile table pathR name suffix (some s) projectId projectName now).2.map
        FileRow.path).Pairwise (fun a b => a ≠ b) ∧
      (indexFile table pathR name suffix (some s) projectId projectName now).2.find?
          (fun r => decide (r.path = pathR)) =
        some { row with
               filename := name
               extension := extColumn suffix
               file_type := classifyFile name (pyLower suffix)
               size_bytes := s.size
               modified_at := s.mtime
               project_id := coalesce projectId row.project_id
               project_name := coalesce projectName row.project_name
               indexed_at := now } := by
  have hany : table.any (fun r => decide (r.path = pathR)) = true := by
    refine List.any_eq_true.2 ⟨row, List.mem_of_find?_eq_some hrow, ?_⟩
    have hh := List.find?_some hrow
    exact hh
  have hrp : row.path = pathR := by
    have hh := List.find?_some hrow
    simp only [decide_eq_true_eq] at hh
    exact hh
  have hupd : ∀ r : FileRow,
      (upsertRow pathR name suffix s projectId projectName now r).path = r.path := by
    intro r
    unfold upsertRow
    by_cases hr : r.path = pathR
    · rw [if_pos hr]
    · rw [if_neg hr]
  unfold indexFile
  simp only [hany, if_true]
  have hpaths : (table.map (upsertRow pathR name suffix s projectId projectName now)).map
      FileRow.path = table.map FileRow.path := by
    rw [List.map_map]
    congr 1
    funext r
    exact hupd r
  refine ⟨by trivial, hpaths, hpaths ▸ huniq, ?_⟩
  have hfind := find?_path_map (f := upsertRow pathR name suffix s projectId projectName now)
    hupd pathR table row hrow
  rw [hfind]
  unfold upsertRow
  rw [if_pos hrp]

theorem C9_index_file_upsert_witness :
    (indexFile
        [{ path := ['p'], filename := ['o'], extension := none, file_type := "other".toList,
           size_bytes := 1, modified_at := 1, created_at := 1, project_id := some 42,
           project_name := some ['n'], indexed_at := 1 }]
        ['p'] "spec1.pdf".toList ".pdf".toList (some ⟨10, 5, 3⟩) none none 9).2.find?
        (fun r => decide (r.path = ['p'])) =
      some { path := ['p'], filename := "spec1.pdf".toList,
             extension := some "pdf".toList,
             file_type := "specification".toList, size_bytes := 10, modified_at := 5,
             created_at := 1, project_id := some 42, project_name := some ['n'],
             indexed_at := 9 } := by
  have h := C9_index_file_upsert
    [{ path := ['p'], filename := ['o'], extension := none, file_type := "other".toList,
       size_bytes := 1, modified_at := 1, created_at := 1, project_id := some 42,
       project_name := some ['n'], indexed_at := 1 }]
    ['p'] "spec1.pdf".toList ".pdf".toList ⟨10, 5, 3⟩ none none 9
    { path := ['p'], filename := ['o'], extension := none, file_type := "other".toList,
      size_bytes := 1, modified_at := 1, created_at := 1, project_id := some 42,
      project_name := some ['n'], indexed_at := 1 }
    (by decide) (by decide)
  rw [h.2.2.2]
  have hext : extColumn ".pdf".toList = some "pdf".toList := by decide
  have hft : classifyFile "spec1.pdf".toList (pyLower ".pdf".toList) =
      "specification".toList := by decide
  rw [hext, hft]
  rfl

/-- C4: re-indexing the same content for the same file id is idempotent:
the second `index_document` call deletes the file's prior records and
re-adds records with ids derived from `(file_id, chunk_index)` — which
are pairwise distinct — so it returns the same chunk count and leaves the
store exactly as after the first call (same record count, no duplicates,
no stale leftovers). -/
theorem C4_index_document_idempotent (size overlap minSize : Nat)
    (embed : List Char → List ℚ) (store : List StoreRecord) (content : List Char)
    (fileId : Int) (filename : List Char) (isSpecification : Bool) :
    indexDocument size overlap minSize embed
        (indexDocument size overlap minSize embed store content fileId filename
          isSpecification).2 content fileId filename isSpecification =
      indexDocument size overlap minSize embed store content fileId filename
        isSpecification ∧
    List.Pairwise (fun a b => a ≠ b)
      ((chunkDocument size overlap minSize fileId filename content
        (if isSpecification then "specification".toList else "other".toList)).map
        (fun c => ((fileId, c.chunk_index) : Int × Nat))) := by
  refine ⟨?_, chunkDocument_ids_distinct size overlap minSize fileId filename content _⟩
  by_cases hblank : content.isEmpty = true ∨ (pyStrip content).isEmpty = true
  · rw [indexDocument_blank size overlap minSize embed store content fileId filename
      isSpecification hblank]
    exact indexDocument_blank size overlap minSize embed store content fileId filename
      isSpecification hblank
  · by_cases hnil : (chunkDocument size overlap minSize fileId filename content
        (if isSpecification then "specification".toList else "other".toList)).isEmpty = true
    · rw [indexDocument_nochunks size overlap minSize embed store content fileId filename
        isSpecification hblank hnil]
      rw [indexDocument_nochunks size overlap minSize embed _ content fileId filename
        isSpecification hblank hnil]
      rw [deleteByFileId_idem]
    · rw [indexDocument_add size overlap minSize embed store content fileId filename
        isSpecification hblank hnil]
      rw [indexDocument_add size overlap minSize embed _ content fileId filename
        isSpecification hblank hnil]
      rw [deleteByFileId_addDocuments]
      intro r hr
      rcases List.mem_map.1 hr with ⟨c, hc, rfl⟩
      exact chunkDocument_fid size overlap minSize fileId filename content _ c hc

/-- C8: every chunk returned by `chunk_document`, for every input text and
content type, has text length at least the configured minimum chunk size;
shorter candidates are discarded, never emitted. -/
theorem C8_min_chunk_size (size overlap minSize : Nat) (fileId : Int)
    (filename text contentType : List Char) :
    ∀ c ∈ chunkDocument size overlap minSize fileId filename text contentType,
      minSize ≤ c.text.length := by
  intro c hc
  unfold chunkDocument at hc
  by_cases hempty : text.isEmpty = true ∨ (pyStrip text).length < minSize
  · rw [if_pos hempty] at hc
    cases hc
  · rw [if_neg hempty] at hc
    by_cases hspec : contentType = "specification".toList
    · rw [if_pos hspec] at hc
      unfold chunkSpecification at hc
      by_cases hms : (findHeaders text).isEmpty
      · rw [if_pos hms] at hc
        exact chunkGeneric_min c hc
      · rw [if_neg hms] at hc
        have h := mem_mkChunks hc
        rcases List.mem_map.1 h with ⟨p, hp, hpe⟩
        rcases List.mem_flatten.1 hp with ⟨l, hl, hpl⟩
        rcases List.mem_map.1 hl with ⟨sec, _, hsec⟩
        rw [← hpe]
        exact specPieceFor_min p (hsec ▸ hpl)
    · rw [if_neg hspec] at hc
      exact chunkGeneric_min c hc

theorem C8_min_chunk_size_witness :
    5 ≤ (Chunk.mk "aaaaa bbbbb ccccc ddddd".toList 1 ['f'] 0 none none).text.length :=
  C8_min_chunk_size 20 4 5 1 ['f'] "aaaaa bbbbb ccccc ddddd".toList "other".toList
    (Chunk.mk "aaaaa bbbbb ccccc ddddd".toList 1 ['f'] 0 none none) (by decide)

/-- C2: the Vector Store's distance-to-score conversion
`score = max(0, 1 - distance/2)` sends every backend cosine distance in
[0,2] to a similarity score in [0,1], with distance 0 giving score 1,
distance 2 giving score 0, and the score never negative for any distance. -/
theorem C2_vector_store_score_range (rows : List (List Char × Metadata × ℚ))
    (h : ∀ row ∈ rows, 0 ≤ row.2.2 ∧ row.2.2 ≤ 2) :
    (∀ r ∈ chromaSearch rows, 0 ≤ r.score ∧ r.score ≤ 1) ∧
      distanceToScore 0 = 1 ∧ distanceToScore 2 = 0 ∧
      (∀ d : ℚ, 0 ≤ distanceToScore d) := by
  refine ⟨?_, by norm_num [distanceToScore], by norm_num [distanceToScore], ?_⟩
  · intro r hr
    rcases List.mem_map.1 hr with ⟨row, hrow, hconv⟩
    have hd := h row hrow
    subst hconv
    constructor
    · exact le_max_left 0 _
    · refine max_le (by norm_num) ?_
      linarith [hd.1]
  · intro d
    exact le_max_left 0 _

theorem C2_vector_store_score_range_witness :
    (∀ row ∈ [ (['a'], (⟨1, ['f'], 0, [], 0⟩ : Metadata), (1 : ℚ)) ],
        0 ≤ row.2.2 ∧ row.2.2 ≤ 2) ∧
      (∀ r ∈ chromaSearch [ (['a'], (⟨1, ['f'], 0, [], 0⟩ : Metadata), (1 : ℚ)) ],
        0 ≤ r.score ∧ r.score ≤ 1) := by
  have h : ∀ row ∈ [ (['a'], (⟨1, ['f'], 0, [], 0⟩ : Metadata), (1 : ℚ)) ],
      0 ≤ row.2.2 ∧ row.2.2 ≤ 2 := by
    intro row hrow
    simp only [List.mem_singleton] at hrow
    subst hrow
    norm_num
  exact ⟨h, (C2_vector_store_score_range _ h).1⟩

/-- C6: `embed_batch` returns one vector per input text, the i-th being
the embedding of the i-th text, for every completion order of the parallel
workers that completes each submitted index. -/
theorem C6_embed_batch_order (f : List Char → List ℚ) (texts : List (List Char))
    (order : List Nat) (h : ∀ i, i < texts.length → i ∈ order) :
    embedBatch f texts order = texts.map (fun t => some (f t)) := by
  unfold embedBatch
  by_cases hlen : texts.length ≤ 1
  · rw [if_pos hlen]
  · rw [if_neg hlen]
    apply List.ext_getElem?
    intro i
    unfold embedBatchCollect
    rw [embedBatchCollect_get, List.length_replicate]
    by_cases hi : i < texts.length
    · rw [if_pos ⟨h i hi, hi⟩, List.getElem?_map,
        List.getElem?_eq_getElem hi]
      rfl
    · rw [if_neg (fun hh => hi hh.2), List.getElem?_replicate, if_neg hi,
        List.getElem?_map, List.getElem?_eq_none (show texts.length ≤ i by omega)]
      rfl

/-- C1: in `search_multi_query`, a recurring dedup key updates the stored
score to `max(existing, new) * 1.1`; the final output is sorted by score
descending, truncated to `max_total_results`, and every reported score is
`round(min(score, 1.0), 4)`, hence never exceeds 1.0 however often a
result was boosted. -/
theorem C1_multi_query_boost_bounded
    (backend : List Char → Nat → List SearchResult) (thash : List Char → Int)
    (queries : List (List Char)) (nPerQuery maxTotal contextChars : Nat)
    (minScore : ℚ) (acc : List ((Int × Int) × MergedResult)) (r : SearchResult)
    (v : MergedResult) (hv : lookupKey acc (dedupKey thash r) = some v) :
    lookupKey (mergeOne thash contextChars acc r) (dedupKey thash r) =
        some (boostEntry v r.score) ∧
      (∀ o ∈ searchMultiQuery backend thash queries nPerQuery maxTotal contextChars minScore,
        o.score ≤ 1 ∧ ∃ s : ℚ, o.score = round4 (min s 1)) ∧
      List.Pairwise (fun a b => b.score ≤ a.score)
        (searchMultiQuery backend thash queries nPerQuery maxTotal contextChars minScore) ∧
      (searchMultiQuery backend thash queries nPerQuery maxTotal contextChars minScore).length ≤
        maxTotal := by
  refine ⟨?_, ?_, ?_, ?_⟩
  · unfold mergeOne
    rw [if_pos (by rw [hv]; rfl)]
    exact lookup_map_update (dedupKey thash r) (fun w => boostEntry w r.score) acc v hv
  · intro o ho
    unfold searchMultiQuery at ho
    by_cases hq : queries.isEmpty
    · rw [if_pos hq] at ho
      exact absurd ho (List.not_mem_nil o)
    · rw [if_neg hq] at ho
      rcases List.mem_map.1 ho with ⟨w, _, hw⟩
      refine ⟨?_, ⟨w.score, ?_⟩⟩
      · rw [← hw]
        exact round4_le_one (min_le_right _ _)
      · rw [← hw]
  · unfold searchMultiQuery
    by_cases hq : queries.isEmpty
    · rw [if_pos hq]
      exact List.Pairwise.nil
    · rw [if_neg hq]
      rw [List.pairwise_map]
      have htrans : ∀ (a b c : MergedResult),
          scoreDesc a b = true → scoreDesc b c = true → scoreDesc a c = true := by
        intro a b c hab hbc
        simp only [scoreDesc, decide_eq_true_eq] at hab hbc ⊢
        exact le_trans hbc hab
      have htotal : ∀ (a b : MergedResult), (scoreDesc a b || scoreDesc b a) = true := by
        intro a b
        simp only [scoreDesc, Bool.or_eq_true, decide_eq_true_eq]
        exact le_total b.score a.score
      have hsorted := List.sorted_mergeSort htrans htotal
        (((queries.foldl (multiQueryStep backend thash nPerQuery contextChars minScore)
          []).map Prod.snd))
      have htake := List.Pairwise.sublist (List.take_sublist maxTotal _) hsorted
      refine htake.imp ?_
      intro a b hab
      simp only [scoreDesc, decide_eq_true_eq] at hab
      exact round4_mono (min_le_min hab le_rfl)
  · unfold searchMultiQuery
    by_cases hq : queries.isEmpty
    · rw [if_pos hq]
      simp
    · rw [if_neg hq]
      rw [List.length_map, List.length_take]
      exact min_le_left _ _

theorem C1_multi_query_boost_bounded_witness :
    lookupKey
        (mergeOne (fun _ => 0) 1000
          [((1, 0), ⟨"t".toList, "f".toList, 1, [], 1 / 2, 1⟩)]
          ⟨"t".toList, 3 / 5, ⟨1, "f".toList, 0, [], 0⟩⟩)
        (dedupKey (fun _ => 0) ⟨"t".toList, 3 / 5, ⟨1, "f".toList, 0, [], 0⟩⟩) =
        some (boostEntry ⟨"t".toList, "f".toList, 1, [], 1 / 2, 1⟩ (3 / 5)) ∧
      (∀ o ∈ searchMultiQuery (fun _ _ => [⟨"t".toList, 3 / 5, ⟨1, "f".toList, 0, [], 0⟩⟩])
          (fun _ => 0) ["hello".toList] 5 10 1000 (3 / 10),
        o.score ≤ 1 ∧ ∃ s : ℚ, o.score = round4 (min s 1)) ∧
      List.Pairwise (fun a b => b.score ≤ a.score)
        (searchMultiQuery (fun _ _ => [⟨"t".toList, 3 / 5, ⟨1, "f".toList, 0, [], 0⟩⟩])
          (fun _ => 0) ["hello".toList] 5 10 1000 (3 / 10)) ∧
      (searchMultiQuery (fun _ _ => [⟨"t".toList, 3 / 5, ⟨1, "f".toList, 0, [], 0⟩⟩])
          (fun _ => 0) ["hello".toList] 5 10 1000 (3 / 10)).length ≤ 10 := by
  have h := C1_multi_query_boost_bounded
    (fun _ _ => [⟨"t".toList, 3 / 5, ⟨1, "f".toList, 0, [], 0⟩⟩]) (fun _ => 0)
    ["hello".toList] 5 10 1000 (3 / 10)
    [((1, 0), ⟨"t".toList, "f".toList, 1, [], 1 / 2, 1⟩)]
    ⟨"t".toList, 3 / 5, ⟨1, "f".toList, 0, [], 0⟩⟩
    ⟨"t".toList, "f".toList, 1, [], 1 / 2, 1⟩ (by rfl)
  exact ⟨h.1, h.2.1, h.2.2.1, h.2.2.2⟩

theorem round4_one : round4 1 = 1 := by
  rw [round4, show ((1 : ℚ) * 10000) = ((10000 : ℤ) : ℚ) by norm_num, round_intCast]
  norm_num

/-- C3 counterexample: with the supplied keyword list `["ab", "ab"]` and a
candidate whose text is `"ab"`, the code reports `keyword_score = 1`
(each list entry counts, with multiplicity), while the claim's
"number of distinct keywords ... divided by max(#keywords, 1)" gives 1/2;
so the claim as stated is false on this input. -/
theorem C3_hybrid_search_counterexample :
    (hybridSearch (fun _ _ => [⟨['a', 'b'], 1 / 2, ⟨1, ['f'], 0, [], 0⟩⟩])
        ['q'] (some [['a', 'b'], ['a', 'b']]) 10 (7 / 10) (3 / 10) 0).map
        HybridResult.keyword_score = [1] ∧
      specDistinctKeywordScore [['a', 'b'], ['a', 'b']] (pyLower ['a', 'b']) = 1 / 2 ∧
      (1 : ℚ) ≠ 1 / 2 := by
  have hkw : keywordScore [['a', 'b'], ['a', 'b']] (pyLower ['a', 'b']) = 1 := by
    have hfl : (([['a', 'b'], ['a', 'b']].filter
        (fun kw => decide (pyLower kw <:+: pyLower ['a', 'b']))).length) = 2 := by
      decide
    simp only [keywordScore, hfl]
    norm_num
  refine ⟨?_, ?_, by norm_num⟩
  · simp only [hybridSearch, kbSearch, lt_irrefl, if_false, Option.getD_some,
      List.filterMap_cons, List.filterMap_nil, hkw]
    rw [if_pos (by norm_num)]
    rw [List.mergeSort_singleton, List.take_of_length_le (by simp)]
    simp only [List.map_cons, List.map_nil, round4_one]
  · have hfl : (([['a', 'b'], ['a', 'b']].dedup.filter
        (fun kw => decide (kw <:+: pyLower ['a', 'b']))).length) = 1 := by
      decide
    simp only [specDistinctKeywordScore, hfl]
    norm_num

/-- C3 (amended): in `hybrid_search`, keywords default to the ones derived
from the lowercased query (alphabetic words minus stopwords and words of
length ≤ 2); each output row comes from an oversampled semantic candidate,
with `keyword_score` the number of keyword entries (counted per list
entry, with multiplicity, each lowercased) occurring as substrings of the
candidate's lowercased text divided by `max(#keywords, 1)`, combined score
`semantic*semantic_weight + keyword*keyword_weight`; only candidates with
combined ≥ `min_score` are kept, sorted descending by (reported) combined
score and truncated to `n_results`. -/
theorem C3_hybrid_search_amended
    (backend : List Char → Nat → List SearchResult) (query : List Char)
    (okeywords : Option (List (List Char))) (nResults : Nat)
    (semanticWeight keywordWeight minScore : ℚ) :
    (∀ o ∈ hybridSearch backend query okeywords nResults semanticWeight keywordWeight minScore,
      ∃ r ∈ kbSearch backend query (nResults * 3) 0,
        o.semantic_score = round4 r.score ∧
        o.keyword_score =
          round4 (keywordScore (okeywords.getD (deriveKeywords query)) (pyLower r.text)) ∧
        o.score = round4 (r.score * semanticWeight +
          keywordScore (okeywords.getD (deriveKeywords query)) (pyLower r.text) *
            keywordWeight) ∧
        minScore ≤ r.score * semanticWeight +
          keywordScore (okeywords.getD (deriveKeywords query)) (pyLower r.text) *
            keywordWeight) ∧
      List.Pairwise (fun a b => b.score ≤ a.score)
        (hybridSearch backend query okeywords nResults semanticWeight keywordWeight minScore) ∧
      (hybridSearch backend query okeywords nResults semanticWeight keywordWeight
        minScore).length ≤ nResults := by
  refine ⟨?_, ?_, ?_⟩
  · intro o ho
    simp only [hybridSearch] at ho
    have ho2 := List.take_subset _ _ ho
    rw [(List.mergeSort_perm _ _).mem_iff] at ho2
    rcases List.mem_filterMap.1 ho2 with ⟨r, hr, hro⟩
    refine ⟨r, hr, ?_⟩
    by_cases hcond : minScore ≤ r.score * semanticWeight +
        keywordScore (okeywords.getD (deriveKeywords query)) (pyLower r.text) * keywordWeight
    · rw [if_pos hcond] at hro
      rcases Option.some.inj hro with rfl
      exact ⟨rfl, rfl, rfl, hcond⟩
    · rw [if_neg hcond] at hro
      exact absurd hro (by simp)
  · simp only [hybridSearch]
    have htrans : ∀ (a b c : HybridResult),
        hybridScoreDesc a b = true → hybridScoreDesc b c = true →
          hybridScoreDesc a c = true := by
      intro a b c hab hbc
      simp only [hybridScoreDesc, decide_eq_true_eq] at hab hbc ⊢
      exact le_trans hbc hab
    have htotal : ∀ (a b : HybridResult),
        (hybridScoreDesc a b || hybridScoreDesc b a) = true := by
      intro a b
      simp only [hybridScoreDesc, Bool.or_eq_true, decide_eq_true_eq]
      exact le_total b.score a.score
    have hsorted := List.sorted_mergeSort htrans htotal
      ((kbSearch backend query (nResults * 3) 0).filterMap (fun r =>
        if minScore ≤ r.score * semanticWeight +
            keywordScore (okeywords.getD (deriveKeywords query)) (pyLower r.text) *
              keywordWeight then
          some { text := r.text
                 source := r.source_filename
                 source_file_id := r.source_file_id
                 sect := r.section_title
                 score := round4 (r.score * semanticWeight +
                   keywordScore (okeywords.getD (deriveKeywords query)) (pyLower r.text) *
                     keywordWeight)
                 semantic_score := round4 r.score
                 keyword_score :=
                   round4 (keywordScore (okeywords.getD (deriveKeywords query))
                     (pyLower r.text)) }
        else none))
    have htake := List.Pairwise.sublist (List.take_sublist nResults _) hsorted
    refine htake.imp ?_
    intro a b hab
    simpa only [hybridScoreDesc, decide_eq_true_eq] using hab
  · simp only [hybridSearch]
    rw [List.length_take]
    exact min_le_left _ _

theorem C3_hybrid_search_amended_witness :
    (∀ o ∈ hybridSearch (fun _ _ => [⟨"ab".toList, 1 / 2, ⟨1, "f".toList, 0, [], 0⟩⟩])
        "the membrane".toList none 5 (7 / 10) (3 / 10) (1 / 10),
      ∃ r ∈ kbSearch (fun _ _ => [⟨"ab".toList, 1 / 2, ⟨1, "f".toList, 0, [], 0⟩⟩])
          "the membrane".toList (5 * 3) 0,
        o.semantic_score = round4 r.score ∧
        o.keyword_score =
          round4 (keywordScore ((none : Option (List (List Char))).getD
            (deriveKeywords "the membrane".toList)) (pyLower r.text)) ∧
        o.score = round4 (r.score * (7 / 10) +
          keywordScore ((none : Option (List (List Char))).getD
            (deriveKeywords "the membrane".toList)) (pyLower r.text) * (3 / 10)) ∧
        (1 : ℚ) / 10 ≤ r.score * (7 / 10) +
          keywordScore ((none : Option (List (List Char))).getD
            (deriveKeywords "the membrane".toList)) (pyLower r.text) * (3 / 10)) ∧
      (hybridSearch (fun _ _ => [⟨"ab".toList, 1 / 2, ⟨1, "f".toList, 0, [], 0⟩⟩])
        "the membrane".toList none 5 (7 / 10) (3 / 10) (1 / 10)).length ≤ 5 := by
  have h := C3_hybrid_search_amended
    (fun _ _ => [⟨"ab".toList, 1 / 2, ⟨1, "f".toList, 0, [], 0⟩⟩])
    "the membrane".toList none 5 (7 / 10) (3 / 10) (1 / 10)
  exact ⟨h.1, h.2.2⟩

theorem C6_embed_batch_order_witness :
    embedBatch (fun t => [(t.length : ℚ)]) [['a'], ['b', 'c'], []] [2, 0, 1] =
      [some [1], some [2], some [0]] := by
  have h : ∀ i, i < ([['a'], ['b', 'c'], []] : List (List Char)).length → i ∈ [2, 0, 1] := by
    decide
  rw [C6_embed_batch_order _ _ _ h]
  rfl

end RfiParser
